import Mathlib

/-!
Verification development for the core of django-openid-op:

* `check_redirect_url` (openid_connect_op/models.py) — redirect URI policy;
* `generate_jwt_patched` and `JWTTools` (openid_connect_op/utils/jwt.py) — token issuance;
* token validation, modelled from the specification (the validator itself is the
  external python_jwt library);
* `oauth_send_answer` (openid_connect_op/views/__init__.py) — response formatting.

Strings are modelled as lists of characters (`Str`), Python dictionaries as
insertion-ordered association lists, and Python `None` / exceptional control
flow with `Option` and dedicated result types.
-/

abbrev Str := List Char

/-- Keys of an association list, in insertion order (Python `dict` keys). -/

def keysOf {α : Type} (d : List (Str × α)) : List Str := d.map (·.1)

/-- Python `dict` lookup on an insertion-ordered association list. -/

def dictLookup {α : Type} (d : List (Str × α)) (k : Str) : Option α :=
  match d with
  | [] => Option.none
  | (k', v) :: rest => if k' = k then some v else dictLookup rest k

/-- Lookup with a default value (`dict.get(k, dflt)`). -/

def lookupD {α : Type} (d : List (Str × α)) (k : Str) (dflt : α) : α :=
  (dictLookup d k).getD dflt

/-- Python `d[k] = v`: replace the value in place if the key is present
    (keeping its position), otherwise append the new key at the end. -/

def dictSet {α : Type} (d : List (Str × α)) (k : Str) (v : α) : List (Str × α) :=
  match d with
  | [] => [(k, v)]
  | (k', v') :: rest => if k' = k then (k', v) :: rest else (k', v') :: dictSet rest k v

/-- Python `d.update(e)`. -/

def dictUpdate {α : Type} (d e : List (Str × α)) : List (Str × α) :=
  e.foldl (fun acc kv => dictSet acc kv.1 kv.2) d

/-- Split a character list at every separator satisfying `p`
    (like Python `str.split(sep)`: empty pieces are kept). -/

def splitPred (p : Char → Bool) : Str → List Str
  | [] => [[]]
  | c :: cs =>
    if p c then [] :: splitPred p cs
    else
      match splitPred p cs with
      | [] => [[c]]
      | h :: t => (c :: h) :: t

/-- Split at every occurrence of one separator character. -/

def splitChar (sep : Char) (s : Str) : List Str := splitPred (· = sep) s

/-- Split at the first occurrence of `sep` (Python `s.split(sep, 1)` when it
    succeeds); `none` when `sep` does not occur. -/

def splitFirst (sep : Char) : Str → Option (Str × Str)
  | [] => Option.none
  | c :: cs =>
    if c = sep then some ([], cs)
    else
      match splitFirst sep cs with
      | Option.none => Option.none
      | some (a, b) => some (c :: a, b)

/-- Split at the last occurrence of `sep` (Python `s.rpartition(sep)` when it
    succeeds); `none` when `sep` does not occur. -/

def rsplitFirst (sep : Char) (s : Str) : Option (Str × Str) :=
  match splitFirst sep s.reverse with
  | Option.none => Option.none
  | some (a, b) => some (b.reverse, a.reverse)

/-- Numeric value of a hexadecimal digit. -/

def hexVal (c : Char) : Option Nat :=
  if '0' ≤ c ∧ c ≤ '9' then some (c.toNat - 48)
  else if 'a' ≤ c ∧ c ≤ 'f' then some (c.toNat - 87)
  else if 'A' ≤ c ∧ c ≤ 'F' then some (c.toNat - 55)
  else Option.none

/-- Percent-decoding of `urllib.parse.unquote`, modelled at the byte level:
    a valid `%XX` pair becomes the character with that code, invalid sequences
    pass through unchanged.  (Python additionally reassembles multi-byte UTF-8
    percent-encoded sequences; none of the claims below depends on non-ASCII
    percent escapes.) -/

def pctDecode : Str → Str
  | '%' :: h1 :: h2 :: rest =>
    match hexVal h1, hexVal h2 with
    | some a, some b => Char.ofNat (16 * a + b) :: pctDecode rest
    | _, _ => '%' :: pctDecode (h1 :: h2 :: rest)
  | c :: rest => c :: pctDecode rest
  | [] => []

/-- `unquote(s.replace('+', ' '))` as applied by `parse_qsl` to every query
    name and value. -/

def pyUnquote (s : Str) : Str :=
  pctDecode (s.map fun c => if c = '+' then ' ' else c)

/-- One name/value pair of `parse_qsl` with `keep_blank_values=True`:
    empty fragments are dropped, a pair without `=` keeps a blank value. -/

def qslPair (p : Str) : Option (Str × Str) :=
  if p = [] then Option.none
  else
    match splitFirst '=' p with
    | Option.none => some (pyUnquote p, [])
    | some (n, v) => some (pyUnquote n, pyUnquote v)

/-- `urllib.parse.parse_qsl(qs, keep_blank_values=True)` as of the Python
    versions contemporary with this repository (pairs separated by both
    `&` and `;`). -/

def parse_qsl (qs : Str) : List (Str × Str) :=
  (((splitChar '&' qs).map (splitChar ';')).flatten).filterMap qslPair

/-- `d.setdefault(k, []).append(v)` on an insertion-ordered multimap. -/

def qsAdd (d : List (Str × List Str)) (k : Str) (v : Str) : List (Str × List Str) :=
  match d with
  | [] => [(k, [v])]
  | (k', vs) :: rest =>
    if k' = k then (k', vs ++ [v]) :: rest else (k', vs) :: qsAdd rest k v

/-- `urllib.parse.parse_qs(qs, keep_blank_values=True)`. -/

def parse_qs (qs : Str) : List (Str × List Str) :=
  (parse_qsl qs).foldl (fun d nv => qsAdd d nv.1 nv.2) []

/-- The query part handled by `check_redirect_url`: Python `None` (no `?` in
    the URI), the empty string (URI ending in `?`), or a `parse_qs` result. -/

inductive Qv : Type
  | qnone : Qv
  | qempty : Qv
  | qdict : List (Str × List Str) → Qv
deriving DecidableEq

/-- Python truthiness of the query part (`None`, `''` and `{}` are falsy). -/

def Qv.truthy : Qv → Bool
  | .qnone => false
  | .qempty => false
  | .qdict d => !d.isEmpty

/-- The underlying dictionary of a parsed query (empty otherwise). -/

def Qv.asDict : Qv → List (Str × List Str)
  | .qdict d => d
  | _ => []

/-- `urllib.parse.splitquery`: split at the last `?`; the query is `None`
    when there is no `?` at all. -/

def splitquery (u : Str) : Str × Option Str :=
  match rsplitFirst '?' u with
  | Option.none => (u, Option.none)
  | some (a, b) => (a, some b)

/-- `AbstractOpenIDClient.__split_base_query`: the query string is parsed with
    `parse_qs` only when it is non-empty (truthy). -/

def split_base_query (u : Str) : Str × Qv :=
  match splitquery u with
  | (b, Option.none) => (b, Qv.qnone)
  | (b, some []) => (b, Qv.qempty)
  | (b, some q) => (b, Qv.qdict (parse_qs q))

/-- The fragment of `urlparse`: everything after the first `#`. -/

def uriFragment (u : Str) : Str :=
  match splitFirst '#' u with
  | Option.none => []
  | some (_, f) => f

/-- Result of the matching attempt for one configured URI: matched,
    `NotFoundException` raised (try the next entry), or the `TypeError`
    reachable when an empty-query entry is indexed with a string key. -/

inductive BR : Type
  | ok : BR
  | nf : BR
  | crash : BR
deriving DecidableEq

/-- Direction (a) of `check_redirect_url`: every registered query component
    must exist in the candidate; a non-blank registered value must appear among
    the candidate's values for its key. -/

def dirA (rd : List (Str × List Str)) (cq : Qv) : Bool :=
  rd.all fun kv =>
    (cq.truthy && decide (kv.1 ∈ keysOf cq.asDict)) &&
    kv.2.all fun val => val.isEmpty || decide (val ∈ lookupD cq.asDict kv.1 [])

/-- One key of direction (b): `key not in redirect_uri_query` is a dictionary
    membership test on a parsed query but a substring test on the empty string
    `''`; indexing `''` with a string key raises `TypeError`. -/

def dirBkey (rq : Qv) (key : Str) (vals : List Str) : BR :=
  match rq with
  | .qnone => .nf
  | .qempty =>
    if key = [] then (if vals = [] then .ok else .crash) else .nf
  | .qdict d =>
    if key ∈ keysOf d then
      let rvals := lookupD d key []
      if vals.all (fun val =>
          rvals.isEmpty || (decide (val ∈ rvals) || decide ([] ∈ rvals)))
      then .ok else .nf
    else .nf

/-- Direction (b) of `check_redirect_url` over all candidate query keys. -/

def dirB (rq : Qv) : List (Str × List Str) → BR
  | [] => .ok
  | (k, vs) :: rest =>
    match dirBkey rq k vs with
    | .ok => dirB rq rest
    | r => r

/-- The `try` block of `check_redirect_url` for one configured entry whose
    base already matches: direction (a), then direction (b). -/

def tryMatch (rq cq : Qv) : BR :=
  if rq.truthy && !(dirA rq.asDict cq) then .nf
  else if cq.truthy then
    if rq = Qv.qnone then .nf else dirB rq cq.asDict
  else .ok

/-- One configured entry authorizes the candidate: equal bases and a clean
    two-directional query match. -/

def entryAuthorizes (conf cand : Str) : Bool :=
  decide ((split_base_query cand).1 = (split_base_query conf).1) &&
  decide (tryMatch (split_base_query conf).2 (split_base_query cand).2 = BR.ok)

/-- The scanning loop of `check_redirect_url`: first successful entry wins,
    `NotFoundException` moves to the next entry, `TypeError` escapes. -/

def checkLoop (b : Str) (q : Qv) : List Str → Option Bool
  | [] => some false
  | p :: rest =>
    if b ≠ (split_base_query p).1 then checkLoop b q rest
    else
      match tryMatch (split_base_query p).2 q with
      | .ok => some true
      | .nf => checkLoop b q rest
      | .crash => Option.none

/-- Python whitespace for `str.split()` (ASCII subset). -/

def isPySpace (c : Char) : Bool :=
  c = ' ' || c = '\t' || c = '\n' || c = '\r' || c.toNat = 11 || c.toNat = 12

/-- Python `str.split()`: split on whitespace runs, drop empty pieces. -/

def pySplit (s : Str) : List Str := (splitPred isPySpace s).filter (· ≠ [])

/-- `AbstractOpenIDClient.check_redirect_url`: `some b` is a normal boolean
    return, `none` the uncaught `TypeError`. -/

def check_redirect_url (redirect_uris : Str) (uri : Str) : Option Bool :=
  if uriFragment uri ≠ [] then some false
  else checkLoop (split_base_query uri).1 (split_base_query uri).2 (pySplit redirect_uris)

/-- JSON values occurring in the modelled tokens: strings and integers. -/

inductive JV : Type
  | s : Str → JV
  | i : Int → JV
deriving DecidableEq

/-- A JSON object, i.e. a Python dict, as an insertion-ordered list. -/

abbrev JObj := List (Str × JV)

/-- Lowercase hexadecimal digit, as used by Python json escapes. -/

def hexDigitChar (n : Nat) : Char :=
  if n < 10 then Char.ofNat (48 + n) else Char.ofNat (87 + n)

/-- Four lowercase hex digits of a (sub-65536) code unit. -/

def hex4 (n : Nat) : Str :=
  [hexDigitChar (n / 4096 % 16), hexDigitChar (n / 256 % 16),
   hexDigitChar (n / 16 % 16), hexDigitChar (n % 16)]

/-- Python `json.dumps` escaping of one character (`ensure_ascii=True`):
    short escapes for quote, backslash and the common control characters,
    printable ASCII verbatim, everything else as `\uXXXX`, with surrogate
    pairs for astral code points. -/

def escapeChar (c : Char) : Str :=
  if c = '"' then ['\\', '"']
  else if c = '\\' then ['\\', '\\']
  else if c.toNat = 8 then ['\\', 'b']
  else if c.toNat = 9 then ['\\', 't']
  else if c.toNat = 10 then ['\\', 'n']
  else if c.toNat = 12 then ['\\', 'f']
  else if c.toNat = 13 then ['\\', 'r']
  else if 32 ≤ c.toNat ∧ c.toNat < 127 then [c]
  else if c.toNat < 65536 then '\\' :: 'u' :: hex4 c.toNat
  else ('\\' :: 'u' :: hex4 (55296 + (c.toNat - 65536) / 1024)) ++
       ('\\' :: 'u' :: hex4 (56320 + (c.toNat - 65536) % 1024))

/-- JSON encoding of a string literal. -/

def encStr (s : Str) : Str := '"' :: (s.map escapeChar).flatten ++ ['"']

/-- Decimal digits of a natural number, with explicit recursion fuel (the
    fuel only needs to exceed the number itself). -/

def natToCharsF : Nat → Nat → Str
  | 0, _ => []
  | fuel + 1, n =>
    if n < 10 then [Char.ofNat (48 + n)]
    else natToCharsF fuel (n / 10) ++ [Char.ofNat (48 + n % 10)]

/-- Decimal digits of a natural number. -/

def natToChars (n : Nat) : Str := natToCharsF (n + 1) n

/-- Decimal representation of an integer (Python `repr`). -/

def intToChars (i : Int) : Str :=
  if i < 0 then '-' :: natToChars i.natAbs else natToChars i.toNat

/-- JSON encoding of a value. -/

def encVal : JV → Str
  | .s v => encStr v
  | .i v => intToChars v

/-- JSON encoding of one object member (`json.dumps` separator `": "`). -/

def encPair (kv : Str × JV) : Str := encStr kv.1 ++ ':' :: ' ' :: encVal kv.2

/-- Join pieces with a separator (`sep.join(pieces)`). -/
def joinSep (sep : Str) : List Str → Str
  | [] => []
  | [x] => x
  | x :: xs => x ++ sep ++ joinSep sep xs

/-- Python `json.dumps` of a dict, with the default separators. -/
def jsonEncodeObj (o : JObj) : Str :=
  '{' :: joinSep [',', ' '] (o.map encPair) ++ ['}']

/-- The base64url alphabet. -/

def b64alphabet : Str :=
  "ABCDEFGHIJKLMNOPQRSTUVWXYZabcdefghijklmnopqrstuvwxyz0123456789-_".toList

/-- Character of one six-bit group. -/

def b64char (n : Nat) : Char := b64alphabet.getD n 'A'

/-- jwcrypto `base64url_encode` on a byte sequence: unpadded base64url. -/

def b64encBytes : List Nat → Str
  | [] => []
  | [b0] => [b64char (b0 / 4), b64char (b0 % 4 * 16)]
  | [b0, b1] => [b64char (b0 / 4), b64char (b0 % 4 * 16 + b1 / 16), b64char (b1 % 16 * 4)]
  | b0 :: b1 :: b2 :: rest =>
    b64char (b0 / 4) :: b64char (b0 % 4 * 16 + b1 / 16) ::
    b64char (b1 % 16 * 4 + b2 / 64) :: b64char (b2 % 64) :: b64encBytes rest

/-- Index of a character in the base64url alphabet. -/

def b64indexAux : Str → Nat → Char → Option Nat
  | [], _, _ => Option.none
  | a :: rest, i, c => if a = c then some i else b64indexAux rest (i + 1) c

/-- Decode one base64url character. -/

def b64decChar (c : Char) : Option Nat := b64indexAux b64alphabet 0 c

/-- Decode an unpadded base64url string back to bytes. -/

def b64decBytes : Str → Option (List Nat)
  | [] => some []
  | [_] => Option.none
  | [c0, c1] =>
    match b64decChar c0, b64decChar c1 with
    | some s0, some s1 => some [s0 * 4 + s1 / 16]
    | _, _ => Option.none
  | [c0, c1, c2] =>
    match b64decChar c0, b64decChar c1, b64decChar c2 with
    | some s0, some s1, some s2 => some [s0 * 4 + s1 / 16, s1 % 16 * 16 + s2 / 4]
    | _, _, _ => Option.none
  | c0 :: c1 :: c2 :: c3 :: rest =>
    match b64decChar c0, b64decChar c1, b64decChar c2, b64decChar c3, b64decBytes rest with
    | some s0, some s1, some s2, some s3, some tail =>
      some ((s0 * 4 + s1 / 16) :: (s1 % 16 * 16 + s2 / 4) :: (s2 % 4 * 64 + s3) :: tail)
    | _, _, _, _, _ => Option.none

/-- Numeric value of four hex digit values. -/

def hexQuad (a b c d : Nat) : Nat := 4096 * a + 256 * b + 16 * c + d

/-- Decode one character at the front of a JSON string-literal body: either a
    plain character or one escape sequence (with surrogate-pair recombination);
    `none` at the closing quote or on a malformed escape. -/

def parseOneChar : Str → Option (Char × Str)
  | [] => Option.none
  | '"' :: _ => Option.none
  | '\\' :: esc =>
    match esc with
    | '"' :: r => some ('"', r)
    | '\\' :: r => some ('\\', r)
    | 'b' :: r => some (Char.ofNat 8, r)
    | 't' :: r => some (Char.ofNat 9, r)
    | 'n' :: r => some (Char.ofNat 10, r)
    | 'f' :: r => some (Char.ofNat 12, r)
    | 'r' :: r => some (Char.ofNat 13, r)
    | 'u' :: h1 :: h2 :: h3 :: h4 :: r =>
      match hexVal h1, hexVal h2, hexVal h3, hexVal h4 with
      | some a, some b, some c, some d =>
        if 55296 ≤ hexQuad a b c d ∧ hexQuad a b c d < 56320 then
          match r with
          | '\\' :: 'u' :: g1 :: g2 :: g3 :: g4 :: r2 =>
            match hexVal g1, hexVal g2, hexVal g3, hexVal g4 with
            | some a2, some b2, some c2, some d2 =>
              if 56320 ≤ hexQuad a2 b2 c2 d2 ∧ hexQuad a2 b2 c2 d2 < 57344 then
                some (Char.ofNat (65536 + (hexQuad a b c d - 55296) * 1024 +
                        (hexQuad a2 b2 c2 d2 - 56320)), r2)
              else Option.none
            | _, _, _, _ => Option.none
          | _ => Option.none
        else if 56320 ≤ hexQuad a b c d ∧ hexQuad a b c d < 57344 then Option.none
        else some (Char.ofNat (hexQuad a b c d), r)
      | _, _, _, _ => Option.none
    | _ => Option.none
  | c :: rest => some (c, rest)

/-- Parse the body of a JSON string literal (after the opening quote), with
    explicit recursion fuel: one unit per decoded character. -/

def parseStrBodyF : Nat → Str → Option (Str × Str)
  | 0, _ => Option.none
  | fuel + 1, s =>
    match s with
    | '"' :: rest => some ([], rest)
    | _ =>
      match parseOneChar s with
      | some (c, r) => (parseStrBodyF fuel r).map (fun p => (c :: p.1, p.2))
      | Option.none => Option.none

/-- Parse the body of a JSON string literal (after the opening quote),
    returning the decoded content and the input after the closing quote. -/

def parseStrBody (s : Str) : Option (Str × Str) := parseStrBodyF (s.length + 1) s

/-- Greedily parse decimal digits onto an accumulator. -/

def parseDigitsAux (acc : Nat) : Str → Nat × Str
  | [] => (acc, [])
  | c :: cs =>
    if c.isDigit then parseDigitsAux (acc * 10 + (c.toNat - 48)) cs else (acc, c :: cs)

/-- Parse a JSON integer token (optional minus sign, then digits). -/

def parseIntTok : Str → Option (Int × Str)
  | '-' :: cs =>
    match cs with
    | c :: _ =>
      if c.isDigit then
        some (-(Int.ofNat (parseDigitsAux 0 cs).1), (parseDigitsAux 0 cs).2)
      else Option.none
    | [] => Option.none
  | c :: cs =>
    if c.isDigit then
      some (Int.ofNat (parseDigitsAux 0 (c :: cs)).1, (parseDigitsAux 0 (c :: cs)).2)
    else Option.none
  | [] => Option.none

/-- Parse a JSON value: a string literal or an integer. -/

def parseVal : Str → Option (JV × Str)
  | '"' :: rest => (parseStrBody rest).map (fun p => (JV.s p.1, p.2))
  | s => (parseIntTok s).map (fun p => (JV.i p.1, p.2))

/-- Parse the members of a JSON object in the canonical `json.dumps` layout,
    with explicit recursion fuel (one unit per member): `"key": value` pairs
    separated by `", "`, ending at the closing brace. -/

def parseFieldsF : Nat → Str → Option (JObj × Str)
  | 0, _ => Option.none
  | fuel + 1, s =>
    match s with
    | '"' :: s1 =>
      match parseStrBody s1 with
      | some (k, r1) =>
        match r1 with
        | ':' :: ' ' :: r2 =>
          match parseVal r2 with
          | some (v, r3) =>
            match r3 with
            | ',' :: ' ' :: r4 =>
              match parseFieldsF fuel r4 with
              | some (fs, r5) => some ((k, v) :: fs, r5)
              | Option.none => Option.none
            | '}' :: r4 => some ([(k, v)], r4)
            | _ => Option.none
          | Option.none => Option.none
        | _ => Option.none
      | Option.none => Option.none
    | _ => Option.none

/-- Parse the members of a JSON object in the canonical `json.dumps` layout. -/

def parseFields (s : Str) : Option (JObj × Str) := parseFieldsF (s.length + 1) s

/-- Python `json.loads` restricted to the canonical output format of the
    modelled `json.dumps`: a single object of string/integer members. -/

def jsonParseObj (s : Str) : Option (JObj × Str) :=
  match s with
  | '{' :: '}' :: rest => some ([], rest)
  | '{' :: rest => parseFields rest
  | _ => Option.none

/-- Base64url-decode a segment and parse it as a JSON object consuming the
    whole segment (the decoded bytes are read back as characters; the inputs
    produced by the encoder are ASCII). -/

def decodeSegment (seg : Str) : Option JObj :=
  match b64decBytes seg with
  | some bytes =>
    match jsonParseObj (bytes.map Char.ofNat) with
    | some (o, []) => some o
    | _ => Option.none
  | Option.none => Option.none

/-- `calendar.timegm(d.utctimetuple())` for a datetime modelled as integer
    microseconds since the Unix epoch: drop the microseconds (floor). -/

def timegm (t : Int) : Int := t.fdiv 1000000

/-- Model of the jwcrypto `JWS` signature: an arbitrary but deterministic
    function of the key and of the protected header and payload JSON; like a
    real signature its output consists of base64url characters only. -/

def signJWS (key : Nat) (header claims : Str) : Str :=
  b64encBytes ((natToChars key).map Char.toNat ++ 46 ::
    (header.map fun c => c.toNat % 256) ++ 46 :: (claims.map fun c => c.toNat % 256))

/-- The `exp` claim derived from the explicit `expires` datetime, when given
    (the `elif expires:` branch of `generate_jwt_patched`). -/

def expFromExpires (c : JObj) (expires : Option Int) : JObj :=
  match expires with
  | some e => dictSet c "exp".toList (JV.i (timegm e))
  | Option.none => c

/-- The token header built by `generate_jwt_patched`: `typ`/`alg` (forced to
    `none` without a key) updated with the extra headers. -/
def jwtHeader (priv_key : Option Nat) (algorithm : Str) (extra_headers : JObj) : JObj :=
  dictUpdate
    [("typ".toList, JV.s "JWT".toList),
     ("alg".toList, JV.s (match priv_key with
                          | some _ => algorithm
                          | Option.none => "none".toList))]
    extra_headers

/-- The claims dict built by `generate_jwt_patched`: the caller's claims with
    `jti` (when `jti_size` is truthy), `nbf`, `iat` and, when a non-zero
    lifetime or an explicit expiry was supplied, `exp`.  `now` is
    `datetime.utcnow()` and `rand` the bytes drawn from `os.urandom(jti_size)`,
    both in integer microseconds respectively raw bytes. -/
def jwtClaims (claims : JObj) (lifetime expires not_before : Option Int)
    (jti_size : Nat) (now : Int) (rand : List Nat) : JObj :=
  let claims1 :=
    if jti_size ≠ 0 then dictSet claims "jti".toList (JV.s (b64encBytes rand)) else claims
  let claims2 := dictSet claims1 "nbf".toList (JV.i (timegm (not_before.getD now)))
  let claims3 := dictSet claims2 "iat".toList (JV.i (timegm now))
  match lifetime with
  | some l =>
    if l ≠ 0 then dictSet claims3 "exp".toList (JV.i (timegm (now + l)))
    else expFromExpires claims3 expires
  | Option.none => expFromExpires claims3 expires

/-- The wire format of a token: base64url of the header and claims JSON and
    the signature segment, joined by dots. -/
def serializeToken (header claims : JObj) (sig : Str) : Str :=
  b64encBytes ((jsonEncodeObj header).map Char.toNat) ++
    '.' :: (b64encBytes ((jsonEncodeObj claims).map Char.toNat) ++ '.' :: sig)

/-- `generate_jwt_patched` of utils/jwt.py.  `priv_key` is the optional
    private key (an abstract key handle).  The result is `none` exactly when
    the source would raise while signing, i.e. when the final header algorithm
    is not `none` and no key was supplied. -/
def generate_jwt_patched (claims : JObj) (priv_key : Option Nat) (algorithm : Str)
    (lifetime : Option Int) (expires : Option Int) (not_before : Option Int)
    (jti_size : Nat) (extra_headers : JObj) (now : Int) (rand : List Nat) :
    Option Str :=
  let header := jwtHeader priv_key algorithm extra_headers
  let claims4 := jwtClaims claims lifetime expires not_before jti_size now rand
  if dictLookup header "alg".toList = some (JV.s "none".toList) then
    some (serializeToken header claims4 [])
  else
    match priv_key with
    | some k =>
      some (serializeToken header claims4
        (signJWS k (jsonEncodeObj header) (jsonEncodeObj claims4)))
    | Option.none => Option.none

/-- Validation failures of §4.4. -/

inductive TokenError : Type
  | MalformedToken : TokenError
  | AlgorithmNotAllowed : TokenError
  | SignatureInvalid : TokenError
  | Expired : TokenError
  | NotYetValid : TokenError
deriving DecidableEq

/-- Modelled from the spec: token validation (§4.4).  The repository delegates
    validation to the external python_jwt library (`JWTTools.validate_jwt`),
    whose code is not under src/.  Split the token on `.`; decode header and
    claims; reject when the declared algorithm is not among the allowed ones;
    verify the signature with the declared algorithm (for `none` the signature
    segment must be empty); reject when the current time (in seconds) is
    before `nbf` or at/after `exp`, each check skipped when the claim is
    absent; on success return the full claims map. -/

def verify_jwt (token : Str) (pub_key : Nat) (allowed : List Str) (now : Int) :
    Except TokenError JObj :=
  match splitChar '.' token with
  | [h64, c64, sig] =>
    match decodeSegment h64, decodeSegment c64 with
    | some header, some claims =>
      match dictLookup header "alg".toList with
      | some (JV.s alg) =>
        if alg ∉ allowed then Except.error TokenError.AlgorithmNotAllowed
        else
          let sigOk : Bool :=
            if alg = "none".toList then decide (sig = [])
            else decide (sig = signJWS pub_key (jsonEncodeObj header) (jsonEncodeObj claims))
          if !sigOk then Except.error TokenError.SignatureInvalid
          else
            let nbfOk : Bool :=
              match dictLookup claims "nbf".toList with
              | some (JV.i t) => decide (t ≤ now)
              | _ => true
            if !nbfOk then Except.error TokenError.NotYetValid
            else
              let expOk : Bool :=
                match dictLookup claims "exp".toList with
                | some (JV.i t) => decide (now < t)
                | _ => true
              if !expOk then Except.error TokenError.Expired
              else Except.ok claims
      | _ => Except.error TokenError.MalformedToken
    | _, _ => Except.error TokenError.MalformedToken
  | _ => Except.error TokenError.MalformedToken

/-- The decoded header of a serialized token. -/

def tokenHeader (t : Str) : Option JObj :=
  match splitChar '.' t with
  | [h, _, _] => decodeSegment h
  | _ => Option.none

/-- The decoded claims of a serialized token. -/

def tokenClaims (t : Str) : Option JObj :=
  match splitChar '.' t with
  | [_, c, _] => decodeSegment c
  | _ => Option.none

/-- The `exp` claim of a successful validation result (`none` when the
    validation failed). -/

def expClaimOf (r : Except TokenError JObj) : Option (Option JV) :=
  match r with
  | Except.ok c => some (dictLookup c "exp".toList)
  | Except.error _ => Option.none

/-- The `exp` claim inside an issued token (`none` when no token was
    produced or its claims segment does not decode). -/

def tokenExp (o : Option Str) : Option (Option JV) :=
  match o with
  | some t => (tokenClaims t).map (fun c => dictLookup c "exp".toList)
  | Option.none => Option.none

/-- `JWTTools.generate_jwt`: issue the payload with the configured cipher
    (`OPENID_JWT_CIPHER`, default RS256), the provider's private key, a `kid`
    extra header, and neither a lifetime nor an explicit expires argument. -/

def JWTTools_generate_jwt (payload : JObj) (key : Nat) (cipher : Str) (kid : Str)
    (now : Int) (rand : List Nat) : Option Str :=
  generate_jwt_patched payload (some key) cipher Option.none Option.none Option.none
    16 [("kid".toList, JV.s kid)] now rand

/-- The request-parameters object of `OAuthRequestMixin` as far as
    `oauth_send_answer` reads it: its `redirect_uri` attribute (possibly
    `None`) and its optional `state` attribute (`none` models both a missing
    attribute and `None`). -/

structure ReqParams : Type where
  redirect_uri : Option Str
  state : Option Str
deriving DecidableEq

/-- The two possible responses of `oauth_send_answer`. -/

inductive OAuthResponse : Type
  | json : List (Str × Str) → Nat → OAuthResponse
  | redirect : Str → OAuthResponse
deriving DecidableEq

/-- Python `a or b` on optional strings (`None` and `''` are falsy). -/

def pyOr (a b : Option Str) : Option Str :=
  match a with
  | some s => if s ≠ [] then some s else b
  | Option.none => b

/-- UTF-8 bytes of one character. -/

def utf8Bytes (c : Char) : List Nat :=
  if c.toNat < 128 then [c.toNat]
  else if c.toNat < 2048 then [192 + c.toNat / 64, 128 + c.toNat % 64]
  else if c.toNat < 65536 then
    [224 + c.toNat / 4096, 128 + c.toNat / 64 % 64, 128 + c.toNat % 64]
  else
    [240 + c.toNat / 262144, 128 + c.toNat / 4096 % 64, 128 + c.toNat / 64 % 64,
     128 + c.toNat % 64]

/-- Uppercase hexadecimal digit (percent-encoding uses uppercase). -/

def hexUpper (n : Nat) : Char :=
  if n < 10 then Char.ofNat (48 + n) else Char.ofNat (55 + n)

/-- `urllib.parse.quote_plus` applied to one character: ASCII alphanumerics
    and `_.-~` kept, space to `+`, anything else percent-encoded bytewise. -/

def quotePlusChar (c : Char) : Str :=
  if c.isAlphanum ∧ c.toNat < 128 then [c]
  else if c = '_' ∨ c = '.' ∨ c = '-' ∨ c = '~' then [c]
  else if c = ' ' then ['+']
  else ((utf8Bytes c).map (fun b => ['%', hexUpper (b / 16), hexUpper (b % 16)])).flatten

/-- `urllib.parse.quote_plus`. -/

def quote_plus (s : Str) : Str := (s.map quotePlusChar).flatten

/-- `urllib.parse.urlencode` of an insertion-ordered parameter dict. -/

def urlencode (params : List (Str × Str)) : Str :=
  joinSep ['&'] (params.map fun kv => quote_plus kv.1 ++ '=' :: quote_plus kv.2)

/-- `OAuthRequestMixin.oauth_send_answer`.  `request_parameters` is the parsed
    parameter object if any, `getRU`/`postRU` the `redirect_uri` entries of
    `request.GET` and `request.POST`, `use_redirect_uri` the class flag. -/

def oauth_send_answer (request_parameters : Option ReqParams) (use_redirect_uri : Bool)
    (getRU postRU : Option Str) (response_params : List (Str × Str)) : OAuthResponse :=
  let ru : Option Str :=
    match request_parameters with
    | some rp => rp.redirect_uri
    | Option.none => pyOr getRU postRU
  let actual : List (Str × Str) :=
    match request_parameters with
    | some rp =>
      match rp.state with
      | some st => if st ≠ [] then dictSet response_params "state".toList st else response_params
      | Option.none => response_params
    | Option.none => response_params
  if ru.getD [] = [] ∨ use_redirect_uri = false then
    OAuthResponse.json actual (if "error".toList ∈ keysOf response_params then 400 else 200)
  else
    OAuthResponse.redirect (ru.getD [] ++
      (if '?' ∈ ru.getD [] then ['&'] else ['?']) ++ urlencode actual)

/-- The redirect response contract written from the specification text (§6):
    select the redirect target (the parsed request parameters' redirect URI,
    else the query/form field); echo a truthy `state` request parameter into
    the result parameters; then, if a target is available and redirect use is
    permitted, redirect to the target with the parameters appended as a
    urlencoded query string, joined with `&` when the target already contains
    `?` and with `?` otherwise; otherwise answer with a JSON body carrying the
    parameters, with status 400 when an `error` parameter is present and 200
    otherwise. -/

def redirectAnswerSpec (request_parameters : Option ReqParams) (use_redirect_uri : Bool)
    (getRU postRU : Option Str) (response_params : List (Str × Str)) : OAuthResponse :=
  let target : Option Str :=
    match request_parameters with
    | some rp => rp.redirect_uri
    | Option.none => pyOr getRU postRU
  let params : List (Str × Str) :=
    match request_parameters with
    | some rp =>
      match rp.state with
      | some st => if st ≠ [] then dictSet response_params "state".toList st else response_params
      | Option.none => response_params
    | Option.none => response_params
  let available : Bool := !(target.getD []).isEmpty
  if available ∧ use_redirect_uri then
    OAuthResponse.redirect (target.getD [] ++
      (if '?' ∈ target.getD [] then ['&'] else ['?']) ++ urlencode params)
  else
    OAuthResponse.json params (if "error".toList ∈ keysOf response_params then 400 else 200)

/-- Value of a digit string continuing an accumulator (specification of
    `parseDigitsAux` on all-digit input). -/
def digVal (acc : Nat) (ds : Str) : Nat :=
  ds.foldl (fun a c => a * 10 + (c.toNat - 48)) acc

/-- `parseOneChar` consumes at least one input character. -/
theorem parseOneChar_shrink :
    ∀ s c r, parseOneChar s = some (c, r) → r.length < s.length := by
  intro s c r h
  unfold parseOneChar at h
  repeat' split at h
  all_goals simp_all
  all_goals omega

/-- `parseStrBodyF` consumes at least the closing quote. -/
theorem parseStrBodyF_shrink :
    ∀ fuel s k r, parseStrBodyF fuel s = some (k, r) → r.length < s.length := by
  intro fuel
  induction fuel with
  | zero => intro s k r h; exact Option.noConfusion h
  | succ fu ih =>
    intro s k r h
    unfold parseStrBodyF at h
    split at h
    · simp only [Option.some.injEq, Prod.mk.injEq] at h
      obtain ⟨-, h2⟩ := h
      subst h2
      simp
    · split at h
      · rename_i hone
        simp only [Option.map_eq_some'] at h
        obtain ⟨⟨k1, r1⟩, hp, he⟩ := h
        have h2 : r1 = r := congrArg Prod.snd he
        subst h2
        exact lt_trans (ih _ _ _ hp) (parseOneChar_shrink _ _ _ hone)
      · exact Option.noConfusion h

/-- `parseStrBody` consumes at least the closing quote. -/
theorem parseStrBody_shrink :
    ∀ s k r, parseStrBody s = some (k, r) → r.length < s.length := by
  intro s k r h
  exact parseStrBodyF_shrink _ _ _ _ h

/-- `parseDigitsAux` never grows its input. -/
theorem parseDigitsAux_len :
    ∀ s acc, (parseDigitsAux acc s).2.length ≤ s.length := by
  intro s
  induction s with
  | nil => intro acc; simp [parseDigitsAux]
  | cons c cs ih =>
    intro acc
    unfold parseDigitsAux
    by_cases hd : c.isDigit
    · simp only [hd, if_true]
      exact le_trans (ih _) (by simp)
    · simp [hd]

/-- `parseDigitsAux` strictly shrinks a digit-headed input. -/
theorem parseDigitsAux_cons_lt (c : Char) (cs : Str) (acc : Nat)
    (hd : c.isDigit = true) :
    ((parseDigitsAux acc (c :: cs)).2).length < (c :: cs).length := by
  unfold parseDigitsAux
  simp only [hd, if_true]
  exact lt_of_le_of_lt (parseDigitsAux_len cs _) (by simp)

/-- `parseIntTok` consumes at least one character. -/
theorem parseIntTok_shrink :
    ∀ s v r, parseIntTok s = some (v, r) → r.length < s.length := by
  intro s v r h
  unfold parseIntTok at h
  repeat' split at h
  all_goals try exact Option.noConfusion h
  all_goals injection h with h'
  all_goals injection h' with h1 h2
  all_goals subst h2
  · exact lt_trans (parseDigitsAux_cons_lt _ _ _ (by assumption))
      (by simp only [List.length_cons]; omega)
  · exact parseDigitsAux_cons_lt _ _ _ (by assumption)

/-- `parseVal` consumes at least one character. -/
theorem parseVal_shrink :
    ∀ s v r, parseVal s = some (v, r) → r.length < s.length := by
  intro s v r h
  unfold parseVal at h
  split at h
  · simp only [Option.map_eq_some'] at h
    obtain ⟨⟨k1, r1⟩, hp, he⟩ := h
    have h2 : r1 = r := congrArg Prod.snd he
    subst h2
    have h3 := parseStrBody_shrink _ _ _ hp
    simp only [List.length_cons]
    omega
  · simp only [Option.map_eq_some'] at h
    obtain ⟨⟨v1, r1⟩, hp, he⟩ := h
    have h2 : r1 = r := congrArg Prod.snd he
    subst h2
    exact parseIntTok_shrink _ _ _ hp

/-- Conversion round trip for valid code points. -/
theorem char_toNat_ofNat (n : Nat) (h : n.isValidChar) : (Char.ofNat n).toNat = n := by
  simp [Char.ofNat, Char.toNat, h, Char.ofNatAux, UInt32.ofNat', UInt32.toNat]

/-- Every character's code point avoids the surrogate range. -/
theorem char_valid_ranges (c : Char) :
    c.toNat < 55296 ∨ (57343 < c.toNat ∧ c.toNat < 1114112) := c.valid

/-- Splitting on a character that does not occur. -/
theorem splitFirst_not_mem (sep : Char) (s : Str) (h : sep ∉ s) :
    splitFirst sep s = Option.none := by
  induction s with
  | nil => rfl
  | cons c cs ih =>
    unfold splitFirst
    have hc : ¬ c = sep := fun hq => h (hq ▸ List.mem_cons_self c cs)
    simp only [hc, if_false]
    rw [ih (fun hm => h (List.mem_cons_of_mem c hm))]

/-- Splitting skips a separator-free prefix. -/
theorem splitFirst_append_not_mem (sep : Char) (a b : Str) (ha : sep ∉ a) :
    splitFirst sep (a ++ b) =
      (splitFirst sep b).map (fun p => (a ++ p.1, p.2)) := by
  induction a with
  | nil =>
    simp only [List.nil_append]
    cases splitFirst sep b with
    | none => rfl
    | some p => rfl
  | cons c cs ih =>
    have hc : ¬ c = sep := fun hq => ha (hq ▸ List.mem_cons_self c cs)
    have hcs : sep ∉ cs := fun hm => ha (List.mem_cons_of_mem c hm)
    cases hb : splitFirst sep b with
    | none =>
      simp only [List.cons_append]
      unfold splitFirst
      simp only [hc, if_false]
      rw [ih hcs, hb]
      rfl
    | some p =>
      obtain ⟨p1, p2⟩ := p
      simp only [List.cons_append]
      unfold splitFirst
      simp only [hc, if_false]
      rw [ih hcs, hb]
      rfl

/-- First split at a separator after a separator-free prefix. -/
theorem splitFirst_front (sep : Char) (a b : Str) (ha : sep ∉ a) :
    splitFirst sep (a ++ sep :: b) = some (a, b) := by
  rw [splitFirst_append_not_mem sep a _ ha]
  unfold splitFirst
  simp

/-- A predicate-free string is not split. -/
theorem splitPred_no_sep (p : Char → Bool) (s : Str) (h : ∀ c ∈ s, p c = false) :
    splitPred p s = [s] := by
  induction s with
  | nil => rfl
  | cons c cs ih =>
    unfold splitPred
    have hc := h c (List.mem_cons_self c cs)
    simp only [hc, Bool.false_eq_true, if_false]
    rw [ih (fun d hd => h d (List.mem_cons_of_mem c hd))]

/-- A separator-free string is not split. -/
theorem splitChar_not_mem (sep : Char) (s : Str) (h : sep ∉ s) :
    splitChar sep s = [s] := by
  unfold splitChar
  refine splitPred_no_sep _ _ (fun c hc => ?_)
  have : ¬ c = sep := fun hq => h (hq ▸ hc)
  simp [this]

/-- Setting a key makes it the looked-up value. -/
theorem dictLookup_dictSet_self {α : Type} (d : List (Str × α)) (k : Str) (v : α) :
    dictLookup (dictSet d k v) k = some v := by
  induction d with
  | nil => simp [dictSet, dictLookup]
  | cons kv rest ih =>
    unfold dictSet
    by_cases hk : kv.1 = k
    · simp [hk, dictLookup]
    · simp only [hk, if_false]
      unfold dictLookup
      simp [hk, ih]

/-- Setting a key leaves other keys' lookups unchanged. -/
theorem dictLookup_dictSet_ne {α : Type} (d : List (Str × α)) (k k' : Str) (v : α)
    (h : k ≠ k') : dictLookup (dictSet d k v) k' = dictLookup d k' := by
  induction d with
  | nil => simp [dictSet, dictLookup, h]
  | cons kv rest ih =>
    unfold dictSet
    by_cases hk : kv.1 = k
    · unfold dictLookup
      simp only [hk]
      simp [h]
    · simp only [hk, if_false]
      unfold dictLookup
      by_cases hk' : kv.1 = k'
      · simp [hk']
      · simp [hk', ih]

/-- C4: for every configured redirect-URI list and every candidate URI that
    carries a non-empty fragment, `check_redirect_url` returns false,
    regardless of the candidate's base and query and of the configured
    entries. -/
theorem C4_fragment_rejected (uris uri : Str) (h : uriFragment uri ≠ []) :
    check_redirect_url uris uri = some false := by
  unfold check_redirect_url
  exact if_pos h

/-- C4 witness: a concrete fragment-carrying candidate is rejected even
    though its base and query match the configured entry. -/
theorem C4_fragment_rejected_witness :
    uriFragment "https://a.example/cb#frag".toList ≠ [] ∧
    check_redirect_url "https://a.example/cb".toList "https://a.example/cb#frag".toList
      = some false :=
  ⟨by decide, C4_fragment_rejected _ _ (by decide)⟩

/-- C1 counterexample: with configured `https://a.example/cb?scope=x`, the
    candidate `https://a.example/cb?scope=x&scope=y` is NOT authorized — the
    claimed result `true` is wrong, because direction (b) of the matching
    also requires the candidate's value `y` to be registered. -/
theorem C1_counterexample :
    ¬ (check_redirect_url "https://a.example/cb?scope=x".toList
        "https://a.example/cb?scope=x&scope=y".toList = some true) := by decide

/-- C1 (amended): for a client configured with redirect URI
    `https://a.example/cb?scope=x`, `check_redirect_url` returns false for the
    candidate with the same base and query `?scope=x&scope=y`: the registered
    value `x` being present is not sufficient, since the candidate's extra
    value `y` for `scope` is not among the configured values and no blank
    value is registered. -/
theorem C1_amended :
    check_redirect_url "https://a.example/cb?scope=x".toList
      "https://a.example/cb?scope=x&scope=y".toList = some false := by decide

/-- A configured key with one blank value matches any single candidate value. -/
theorem tryMatch_wildcard (u : Str) :
    tryMatch (Qv.qdict [("scope".toList, [[]])]) (Qv.qdict [("scope".toList, [u])]) = BR.ok := by
  unfold tryMatch dirA dirB dirBkey
  simp [Qv.truthy, Qv.asDict, keysOf, lookupD, dictLookup]
  rfl

/-- One `scope=`-prefixed query pair parses to key `scope` and the decoded value. -/
theorem qslPair_scope (v : Str) :
    qslPair ("scope=".toList ++ v) = some ("scope".toList, pyUnquote v) := by
  unfold qslPair
  rw [if_neg (by simp)]
  rw [show ("scope=".toList ++ v) = "scope".toList ++ '=' :: v from rfl]
  rw [splitFirst_front '=' _ _ (by decide)]
  show some (pyUnquote "scope".toList, pyUnquote v) = some ("scope".toList, pyUnquote v)
  rw [show pyUnquote "scope".toList = "scope".toList from by decide]

/-- A query string `scope=v` with no separators in `v` parses to one entry. -/
theorem parse_qs_scope (v : Str) (h3 : '&' ∉ v) (h4 : ';' ∉ v) :
    parse_qs ("scope=".toList ++ v) = [("scope".toList, [pyUnquote v])] := by
  unfold parse_qs parse_qsl
  rw [splitChar_not_mem '&' _ (by
    intro hm
    rcases List.mem_append.mp hm with hin | hin
    · exact absurd hin (by decide)
    · exact h3 hin)]
  simp only [List.map_cons, List.map_nil]
  rw [splitChar_not_mem ';' _ (by
    intro hm
    rcases List.mem_append.mp hm with hin | hin
    · exact absurd hin (by decide)
    · exact h4 hin)]
  simp only [List.flatten_cons, List.flatten_nil, List.append_nil]
  rw [List.filterMap_cons, qslPair_scope v]
  rfl

/-- Base/query split of the wildcard candidate. -/
theorem splitquery_cand (v : Str) (h1 : '?' ∉ v) :
    splitquery ("https://a.example/cb?scope=".toList ++ v) =
      ("https://a.example/cb".toList, some ("scope=".toList ++ v)) := by
  unfold splitquery rsplitFirst
  rw [List.reverse_append]
  rw [splitFirst_append_not_mem '?' _ _ (fun hm => h1 (List.mem_reverse.mp hm))]
  rw [show splitFirst '?' ("https://a.example/cb?scope=".toList.reverse) =
      some ("scope=".toList.reverse, "https://a.example/cb".toList.reverse) from by decide]
  simp

/-- C5: a configured query key registered only with a blank value requires
    the key to exist on the candidate but accepts any value for it: with
    configured `https://a.example/cb?scope=`, every candidate
    `https://a.example/cb?scope=<v>` (no further query pairs, fragment or
    query separator inside `v`) is authorized, and the candidate without the
    `scope` key is rejected. -/
theorem C5_blank_wildcard (v : Str) (h1 : '?' ∉ v) (h2 : '#' ∉ v) (h3 : '&' ∉ v)
    (h4 : ';' ∉ v) :
    check_redirect_url "https://a.example/cb?scope=".toList
      ("https://a.example/cb?scope=".toList ++ v) = some true ∧
    check_redirect_url "https://a.example/cb?scope=".toList
      "https://a.example/cb".toList = some false := by
  constructor
  · have hfrag : uriFragment ("https://a.example/cb?scope=".toList ++ v) = [] := by
      unfold uriFragment
      rw [splitFirst_append_not_mem '#' _ _ (by decide), splitFirst_not_mem '#' v h2]
      rfl
    have hsq : split_base_query ("https://a.example/cb?scope=".toList ++ v) =
        ("https://a.example/cb".toList, Qv.qdict [("scope".toList, [pyUnquote v])]) := by
      unfold split_base_query
      rw [splitquery_cand v h1]
      show ("https://a.example/cb".toList, Qv.qdict (parse_qs ("scope=".toList ++ v))) = _
      rw [parse_qs_scope v h3 h4]
    unfold check_redirect_url
    rw [hfrag]
    rw [if_neg (by simp)]
    rw [hsq]
    show checkLoop "https://a.example/cb".toList
      (Qv.qdict [("scope".toList, [pyUnquote v])])
      (pySplit "https://a.example/cb?scope=".toList) = some true
    rw [show pySplit "https://a.example/cb?scope=".toList =
        ["https://a.example/cb?scope=".toList] from by decide]
    unfold checkLoop
    rw [show split_base_query "https://a.example/cb?scope=".toList =
        ("https://a.example/cb".toList, Qv.qdict [("scope".toList, [[]])]) from by decide]
    rw [if_neg (by decide)]
    rw [show (("https://a.example/cb".toList, Qv.qdict [("scope".toList, [[]])]) :
        Str × Qv).2 = Qv.qdict [("scope".toList, [[]])] from rfl]
    rw [tryMatch_wildcard (pyUnquote v)]
  · decide

/-- C5 witness: the claim's concrete example — configured
    `https://a.example/cb?scope=` accepts `https://a.example/cb?scope=anything`
    and rejects `https://a.example/cb`. -/
theorem C5_blank_wildcard_witness :
    check_redirect_url "https://a.example/cb?scope=".toList
      ("https://a.example/cb?scope=".toList ++ "anything".toList) = some true ∧
    check_redirect_url "https://a.example/cb?scope=".toList
      "https://a.example/cb".toList = some false :=
  C5_blank_wildcard "anything".toList (by decide) (by decide) (by decide) (by decide)

/-- Against an entry with no query string, the match succeeds exactly when
    the candidate's parsed query is falsy. -/
theorem tryMatch_qnone (cq : Qv) : tryMatch Qv.qnone cq = BR.ok ↔ cq.truthy = false := by
  unfold tryMatch
  cases hcq : cq.truthy <;> simp [Qv.truthy, hcq]

/-- C6: a configured entry with no query string at all (its query part is
    Python `None`) authorizes exactly the candidates whose own parsed query is
    empty: a candidate carrying at least one query parameter fails against it,
    and an empty query on both sides matches exactly when the bases are
    equal. -/
theorem C6_no_query_entry (conf cand : Str)
    (h : (split_base_query conf).2 = Qv.qnone) :
    entryAuthorizes conf cand = true ↔
      ((split_base_query cand).1 = (split_base_query conf).1 ∧
       ((split_base_query cand).2).truthy = false) := by
  unfold entryAuthorizes
  rw [h]
  simp [tryMatch_qnone]

/-- `qsAdd` preserves non-emptiness of all value lists. -/
theorem qsAdd_vals_ne_nil (d : List (Str × List Str)) (k : Str) (v : Str)
    (hd : ∀ kv ∈ d, kv.2 ≠ []) : ∀ kv ∈ qsAdd d k v, kv.2 ≠ [] := by
  induction d with
  | nil =>
    intro kv hkv
    unfold qsAdd at hkv
    simp at hkv
    subst hkv
    simp
  | cons kv0 rest ih =>
    intro kv hkv
    unfold qsAdd at hkv
    obtain ⟨k0, vs0⟩ := kv0
    by_cases h0 : k0 = k
    · simp only [h0, if_true] at hkv
      rcases List.mem_cons.mp hkv with h1 | h1
      · subst h1; simp
      · exact hd kv (List.mem_cons_of_mem _ h1)
    · simp only [h0, if_false] at hkv
      rcases List.mem_cons.mp hkv with h1 | h1
      · subst h1; exact hd (k0, vs0) (List.mem_cons_self _ _)
      · exact ih (fun kv' hkv' => hd kv' (List.mem_cons_of_mem _ hkv')) kv h1

/-- Folding `qsAdd` preserves non-emptiness of all value lists. -/
theorem foldl_qsAdd_inv (l : List (Str × Str)) (d : List (Str × List Str))
    (hd : ∀ kv ∈ d, kv.2 ≠ []) :
    ∀ kv ∈ l.foldl (fun d nv => qsAdd d nv.1 nv.2) d, kv.2 ≠ [] := by
  induction l generalizing d with
  | nil => exact hd
  | cons nv rest ih =>
    intro kv hkv
    exact ih (qsAdd d nv.1 nv.2) (qsAdd_vals_ne_nil d nv.1 nv.2 hd) kv hkv

/-- Every key of a `parse_qs` result carries at least one value. -/
theorem parse_qs_vals_ne_nil (qs : Str) : ∀ kv ∈ parse_qs qs, kv.2 ≠ [] := by
  unfold parse_qs
  exact foldl_qsAdd_inv _ _ (by intro kv h; cases h)

/-- Every key of a parsed query part carries at least one value. -/
theorem split_base_query_vals (u : Str) :
    ∀ kv ∈ ((split_base_query u).2).asDict, kv.2 ≠ [] := by
  unfold split_base_query
  cases hs : splitquery u with
  | mk b q =>
    cases q with
    | none => intro kv hkv; cases hkv
    | some qq =>
      cases qq with
      | nil => intro kv hkv; cases hkv
      | cons c cs =>
        intro kv hkv
        exact parse_qs_vals_ne_nil _ kv hkv

/-- A present key has a looked-up value. -/
theorem dictLookup_of_mem_keys {α : Type} (d : List (Str × α)) (k : Str)
    (h : k ∈ keysOf d) : ∃ v, dictLookup d k = some v := by
  induction d with
  | nil => cases h
  | cons kv rest ih =>
    obtain ⟨k0, v0⟩ := kv
    unfold dictLookup
    by_cases h0 : k0 = k
    · exact ⟨v0, by simp [h0]⟩
    · simp only [h0, if_false]
      rcases List.mem_cons.mp h with h1 | h1
      · exact absurd h1.symm h0
      · exact ih h1

/-- A looked-up binding is a member of the dictionary. -/
theorem dictLookup_mem {α : Type} (d : List (Str × α)) (k : Str) (v : α)
    (h : dictLookup d k = some v) : (k, v) ∈ d := by
  induction d with
  | nil => cases h
  | cons kv rest ih =>
    obtain ⟨k0, v0⟩ := kv
    unfold dictLookup at h
    by_cases h0 : k0 = k
    · simp only [h0, if_true, Option.some.injEq] at h
      subst h0; subst h
      exact List.mem_cons_self _ _
    · simp only [h0, if_false] at h
      exact List.mem_cons_of_mem _ (ih h)

/-- A successful direction (b) passes every candidate query key. -/
theorem dirB_ok_forall (rq : Qv) (c : List (Str × List Str)) (h : dirB rq c = BR.ok) :
    ∀ kv ∈ c, dirBkey rq kv.1 kv.2 = BR.ok := by
  induction c with
  | nil => intro kv hkv; cases hkv
  | cons kv0 rest ih =>
    obtain ⟨k0, vs0⟩ := kv0
    intro kv hkv
    unfold dirB at h
    cases hk : dirBkey rq k0 vs0 with
    | ok =>
      rw [hk] at h
      rcases List.mem_cons.mp hkv with h1 | h1
      · subst h1; exact hk
      · exact ih h kv h1
    | nf => rw [hk] at h; cases h
    | crash => rw [hk] at h; cases h

/-- What a successful direction (b) check of one key (with at least one
    value) implies: the entry is a parsed dictionary containing the key, and
    each value is registered, or the registered list is empty or blank. -/
theorem dirBkey_ok_elim (rq : Qv) (k : Str) (vs : List Str) (hvs : vs ≠ [])
    (h : dirBkey rq k vs = BR.ok) :
    ∃ d, rq = Qv.qdict d ∧ k ∈ keysOf d ∧
      ∀ v ∈ vs, lookupD d k [] = [] ∨ v ∈ lookupD d k [] ∨ [] ∈ lookupD d k [] := by
  cases rq with
  | qnone => cases h
  | qempty =>
    unfold dirBkey at h
    by_cases hk : k = []
    · simp only [hk, if_true] at h
      rw [if_neg hvs] at h
      cases h
    · simp only [hk, if_false] at h
      cases h
  | qdict d =>
    refine ⟨d, rfl, ?_, ?_⟩
    · unfold dirBkey at h
      by_cases hk : k ∈ keysOf d
      · exact hk
      · simp only [hk, if_false] at h; cases h
    · unfold dirBkey at h
      by_cases hk : k ∈ keysOf d
      · simp only [hk, if_true] at h
        split at h
        · rename_i hall
          intro v hv
          have := List.all_eq_true.mp hall v hv
          simp only [Bool.or_eq_true, decide_eq_true_eq, List.isEmpty_iff] at this
          tauto
        · cases h
      · simp only [hk, if_false] at h; cases h

/-- A falsy query part has no entries. -/
theorem Qv_not_truthy_asDict (q : Qv) (h : q.truthy = false) : q.asDict = [] := by
  cases q with
  | qnone => rfl
  | qempty => rfl
  | qdict d =>
    unfold Qv.truthy at h
    simp at h
    simp [Qv.asDict, h]

/-- C2: whenever a configured entry (with the same base) authorizes the
    candidate, every key of the candidate's query multimap is present in the
    configured entry's multimap and every candidate value under that key
    appears among the configured values or the configured entry registers a
    blank value for the key; in particular, configured
    `https://a.example/cb?scope=x` with candidate
    `https://a.example/cb?scope=x&extra=1` yields false. -/
theorem C2_candidate_subset (conf cand : Str)
    (h : entryAuthorizes conf cand = true) :
    (∀ k vs, (k, vs) ∈ ((split_base_query cand).2).asDict →
      k ∈ keysOf ((split_base_query conf).2).asDict ∧
      ∀ v ∈ vs, v ∈ lookupD ((split_base_query conf).2).asDict k [] ∨
        [] ∈ lookupD ((split_base_query conf).2).asDict k []) ∧
    check_redirect_url "https://a.example/cb?scope=x".toList
      "https://a.example/cb?scope=x&extra=1".toList = some false := by
  refine ⟨?_, by decide⟩
  intro k vs hmem
  unfold entryAuthorizes at h
  simp only [Bool.and_eq_true, decide_eq_true_eq] at h
  obtain ⟨hbase, htm⟩ := h
  unfold tryMatch at htm
  split at htm
  · cases htm
  · split at htm
    · split at htm
      · cases htm
      · have hkey := dirB_ok_forall _ _ htm (k, vs) hmem
        have hvs : vs ≠ [] := split_base_query_vals cand (k, vs) hmem
        obtain ⟨d, hd, hk, hvals⟩ := dirBkey_ok_elim _ _ _ hvs hkey
        rw [hd]
        refine ⟨hk, ?_⟩
        intro v hv
        rcases hvals v hv with h0 | h0 | h0
        · exfalso
          obtain ⟨w, hw⟩ := dictLookup_of_mem_keys d k hk
          have hwne : w ≠ [] := by
            have hmem2 : (k, w) ∈ d := dictLookup_mem d k w hw
            exact split_base_query_vals conf (k, w) (by rw [hd]; exact hmem2)
          unfold lookupD at h0
          rw [hw] at h0
          exact hwne h0
        · exact Or.inl h0
        · exact Or.inr h0
    · rename_i hfalse
      have hnil : ((split_base_query cand).2).asDict = [] :=
        Qv_not_truthy_asDict _ (by simpa using hfalse)
      rw [hnil] at hmem
      cases hmem

/-- C2 witness: the candidate equal to the configured URI is authorized, so
    the subset property holds of it concretely. -/
theorem C2_candidate_subset_witness :
    (∀ k vs, (k, vs) ∈ ((split_base_query "https://a.example/cb?scope=x".toList).2).asDict →
      k ∈ keysOf ((split_base_query "https://a.example/cb?scope=x".toList).2).asDict ∧
      ∀ v ∈ vs, v ∈ lookupD ((split_base_query "https://a.example/cb?scope=x".toList).2).asDict k [] ∨
        [] ∈ lookupD ((split_base_query "https://a.example/cb?scope=x".toList).2).asDict k []) ∧
    check_redirect_url "https://a.example/cb?scope=x".toList
      "https://a.example/cb?scope=x&extra=1".toList = some false :=
  C2_candidate_subset "https://a.example/cb?scope=x".toList
    "https://a.example/cb?scope=x".toList (by decide)

/-- C6 witness: the configured entry `https://a.example/cb` has no query
    string, and the candidate `https://a.example/cb?` (empty query) is
    authorized exactly because its parsed query is empty and the bases are
    equal. -/
theorem C6_no_query_entry_witness :
    (split_base_query "https://a.example/cb".toList).2 = Qv.qnone ∧
    (entryAuthorizes "https://a.example/cb".toList "https://a.example/cb?".toList = true ↔
      ((split_base_query "https://a.example/cb?".toList).1 =
        (split_base_query "https://a.example/cb".toList).1 ∧
       ((split_base_query "https://a.example/cb?".toList).2).truthy = false)) :=
  ⟨by decide, C6_no_query_entry _ _ (by decide)⟩

/-- C9: `oauth_send_answer` agrees with the specification's redirect response
    contract on every input: when no redirect target is available (or redirect
    use is disabled) it answers with a JSON body carrying the parameters, 400
    when an `error` parameter is present and 200 otherwise; when a target is
    available and permitted it redirects to the target with the parameters
    appended as a urlencoded query string, joined with `&` if the target
    already contains `?` and with `?` otherwise. -/
theorem C9_send_answer (request_parameters : Option ReqParams) (use_redirect_uri : Bool)
    (getRU postRU : Option Str) (response_params : List (Str × Str)) :
    oauth_send_answer request_parameters use_redirect_uri getRU postRU response_params =
    redirectAnswerSpec request_parameters use_redirect_uri getRU postRU response_params := by
  unfold oauth_send_answer redirectAnswerSpec
  cases request_parameters with
  | none =>
    by_cases hru : (pyOr getRU postRU).getD [] = []
    · simp [hru]
    · by_cases hu : use_redirect_uri <;> simp [hru, hu, List.isEmpty_iff]
  | some rp =>
    by_cases hru : (rp.redirect_uri).getD [] = []
    · simp [hru]
    · by_cases hu : use_redirect_uri <;> simp [hru, hu, List.isEmpty_iff]

/-- Decoding inverts the base64url character map on six-bit values. -/
theorem b64decChar_b64char : ∀ n, n < 64 → b64decChar (b64char n) = some n := by decide

/-- No base64url character is a dot. -/
theorem b64char_ne_dot : ∀ n, b64char n ≠ '.' := by
  intro n
  by_cases h : n < 64
  · exact (by decide : ∀ m, m < 64 → b64char m ≠ '.') n h
  · unfold b64char
    rw [List.getD_eq_default]
    · decide
    · have hl : b64alphabet.length = 64 := by decide
      omega

/-- A base64url encoding never contains a dot. -/
theorem b64encBytes_ne_dot : ∀ (l : List Nat), ∀ c ∈ b64encBytes l, c ≠ '.'
  | [] => by simp [b64encBytes]
  | [b0] => by
    intro c hc
    unfold b64encBytes at hc
    rcases List.mem_cons.mp hc with h | h
    · subst h; exact b64char_ne_dot _
    · rcases List.mem_cons.mp h with h1 | h1
      · subst h1; exact b64char_ne_dot _
      · cases h1
  | [b0, b1] => by
    intro c hc
    unfold b64encBytes at hc
    rcases List.mem_cons.mp hc with h | h
    · subst h; exact b64char_ne_dot _
    · rcases List.mem_cons.mp h with h1 | h1
      · subst h1; exact b64char_ne_dot _
      · rcases List.mem_cons.mp h1 with h2 | h2
        · subst h2; exact b64char_ne_dot _
        · cases h2
  | b0 :: b1 :: b2 :: rest => by
    intro c hc
    unfold b64encBytes at hc
    rcases List.mem_cons.mp hc with h | h
    · subst h; exact b64char_ne_dot _
    · rcases List.mem_cons.mp h with h1 | h1
      · subst h1; exact b64char_ne_dot _
      · rcases List.mem_cons.mp h1 with h2 | h2
        · subst h2; exact b64char_ne_dot _
        · rcases List.mem_cons.mp h2 with h3 | h3
          · subst h3; exact b64char_ne_dot _
          · exact b64encBytes_ne_dot rest c h3

/-- Decoding inverts the base64url encoding of any byte sequence. -/
theorem b64_roundtrip : ∀ (l : List Nat), (∀ b ∈ l, b < 256) →
    b64decBytes (b64encBytes l) = some l
  | [] => by intro h; rfl
  | [b0] => by
    intro h
    have hb0 : b0 < 256 := h b0 (by simp)
    unfold b64encBytes b64decBytes
    rw [b64decChar_b64char _ (by omega), b64decChar_b64char _ (by omega)]
    simp only [Option.some.injEq, List.cons.injEq, and_true]
    omega
  | [b0, b1] => by
    intro h
    have hb0 : b0 < 256 := h b0 (by simp)
    have hb1 : b1 < 256 := h b1 (by simp)
    unfold b64encBytes b64decBytes
    rw [b64decChar_b64char _ (by omega), b64decChar_b64char _ (by omega),
        b64decChar_b64char _ (by omega)]
    simp only [Option.some.injEq, List.cons.injEq, and_true]
    omega
  | b0 :: b1 :: b2 :: rest => by
    intro h
    have hb0 : b0 < 256 := h b0 (by simp)
    have hb1 : b1 < 256 := h b1 (by simp)
    have hb2 : b2 < 256 := h b2 (by simp)
    have ih := b64_roundtrip rest (fun b hb => h b (by simp [hb]))
    unfold b64encBytes b64decBytes
    rw [b64decChar_b64char _ (by omega), b64decChar_b64char _ (by omega),
        b64decChar_b64char _ (by omega), b64decChar_b64char _ (by omega), ih]
    simp only [Option.some.injEq, List.cons.injEq, and_true]
    omega

/-- Characterization of `Char.isDigit` on code points. -/
theorem isDigit_iff (c : Char) : c.isDigit = true ↔ 48 ≤ c.toNat ∧ c.toNat ≤ 57 := by
  unfold Char.isDigit
  simp only [Bool.and_eq_true, decide_eq_true_eq, ge_iff_le]
  exact Iff.rfl

/-- Decimal digit characters are digits. -/
theorem digitChar_isDigit : ∀ n, n < 10 → (Char.ofNat (48 + n)).isDigit = true := by decide

/-- Code point of a decimal digit character. -/
theorem digitChar_toNat : ∀ n, n < 10 → (Char.ofNat (48 + n)).toNat = 48 + n := by decide

/-- Every character of a decimal representation is a digit. -/
theorem natToCharsF_digits : ∀ f n, ∀ c ∈ natToCharsF f n, c.isDigit = true := by
  intro f
  induction f with
  | zero => intro n c hc; cases hc
  | succ fu ih =>
    intro n c hc
    unfold natToCharsF at hc
    by_cases h : n < 10
    · simp only [h, if_true, List.mem_cons, List.not_mem_nil, or_false] at hc
      subst hc
      exact digitChar_isDigit n h
    · simp only [h, if_false] at hc
      rcases List.mem_append.mp hc with hm | hm
      · exact ih _ c hm
      · simp only [List.mem_cons, List.not_mem_nil, or_false] at hm
        subst hm
        exact digitChar_isDigit _ (Nat.mod_lt _ (by omega))

/-- A decimal representation with fuel is non-empty. -/
theorem natToCharsF_ne_nil : ∀ f n, 0 < f → natToCharsF f n ≠ [] := by
  intro f n hf
  match f, hf with
  | fu + 1, _ =>
    unfold natToCharsF
    by_cases h : n < 10
    · simp [h]
    · simp [h]

/-- A decimal representation is non-empty. -/
theorem natToChars_ne_nil (n : Nat) : natToChars n ≠ [] :=
  natToCharsF_ne_nil _ _ (by omega)

/-- `digVal` splits over append. -/
theorem digVal_append (acc : Nat) (a b : Str) :
    digVal acc (a ++ b) = digVal (digVal acc a) b := by
  unfold digVal
  exact List.foldl_append _ _ _ _

/-- The digit value of a decimal representation recovers the number. -/
theorem digVal_natToCharsF : ∀ f n acc, n < f →
    digVal acc (natToCharsF f n) = acc * 10 ^ (natToCharsF f n).length + n := by
  intro f
  induction f with
  | zero => intro n acc h; omega
  | succ fu ih =>
    intro n acc hn
    unfold natToCharsF
    by_cases h : n < 10
    · simp only [h, if_true]
      unfold digVal
      simp only [List.foldl_cons, List.foldl_nil, List.length_cons, List.length_nil]
      rw [digitChar_toNat n h]
      simp [pow_one]
    · simp only [h, if_false]
      rw [digVal_append, ih (n / 10) acc (by omega)]
      unfold digVal
      simp only [List.foldl_cons, List.foldl_nil, List.length_append, List.length_cons,
        List.length_nil]
      rw [digitChar_toNat _ (Nat.mod_lt _ (by omega))]
      rw [pow_succ]
      ring_nf
      omega

/-- `parseDigitsAux` consumes an all-digit prefix and accumulates its value. -/
theorem parseDigitsAux_all_digits (ds : Str) (rest : Str) (acc : Nat)
    (hd : ∀ c ∈ ds, c.isDigit = true) :
    parseDigitsAux acc (ds ++ rest) = parseDigitsAux (digVal acc ds) rest := by
  induction ds generalizing acc with
  | nil => simp [digVal]
  | cons c cs ih =>
    have hc := hd c (List.mem_cons_self c cs)
    simp only [List.cons_append, parseDigitsAux, hc, if_true, List.append_eq]
    rw [ih _ (fun d hdm => hd d (List.mem_cons_of_mem c hdm))]
    congr 1

/-- `parseDigitsAux` stops at a non-digit head. -/
theorem parseDigitsAux_stop (acc : Nat) (rest : Str)
    (hr : ∀ c t, rest = c :: t → c.isDigit = false) :
    parseDigitsAux acc rest = (acc, rest) := by
  cases rest with
  | nil => rfl
  | cons c t =>
    unfold parseDigitsAux
    rw [hr c t rfl]
    simp

/-- A digit character is not the minus sign. -/
theorem digit_ne_minus (c : Char) (h : c.isDigit = true) : c ≠ '-' := by
  intro hc
  subst hc
  exact absurd h (by decide)

/-- A digit character is not a double quote. -/
theorem digit_ne_quote (c : Char) (h : c.isDigit = true) : c ≠ '"' := by
  intro hc
  subst hc
  exact absurd h (by decide)

/-- Parsing inverts the decimal encoding of an integer when the remainder
    does not begin with a digit. -/
theorem parseIntTok_inv (i : Int) (rest : Str)
    (hr : ∀ c t, rest = c :: t → c.isDigit = false) :
    parseIntTok (intToChars i ++ rest) = some (i, rest) := by
  unfold intToChars
  by_cases hneg : i < 0
  · simp only [hneg, if_true]
    match hnc : natToChars i.natAbs, natToChars_ne_nil i.natAbs with
    | c :: t, _ =>
      have hdigs : ∀ d ∈ c :: t, d.isDigit = true := by rw [← hnc]; exact natToCharsF_digits _ _
      have hc : c.isDigit = true := hdigs c (List.mem_cons_self c t)
      have hall := parseDigitsAux_all_digits (c :: t) rest 0 hdigs
      rw [parseDigitsAux_stop _ _ hr] at hall
      rw [List.cons_append] at hall
      have hv : digVal 0 (c :: t) = i.natAbs := by
        rw [← hnc]
        unfold natToChars
        rw [digVal_natToCharsF _ _ _ (by omega)]
        simp
      unfold parseIntTok
      simp only [List.cons_append, hc, if_true]
      rw [hall, hv]
      simp only [Option.some.injEq, Prod.mk.injEq, and_true, Int.ofNat_eq_coe]
      omega
  · simp only [hneg, if_false]
    match hnc : natToChars i.toNat, natToChars_ne_nil i.toNat with
    | c :: t, _ =>
      have hdigs : ∀ d ∈ c :: t, d.isDigit = true := by rw [← hnc]; exact natToCharsF_digits _ _
      have hc : c.isDigit = true := hdigs c (List.mem_cons_self c t)
      have hcm : c ≠ '-' := digit_ne_minus c hc
      have hall := parseDigitsAux_all_digits (c :: t) rest 0 hdigs
      rw [parseDigitsAux_stop _ _ hr] at hall
      rw [List.cons_append] at hall
      have hv : digVal 0 (c :: t) = i.toNat := by
        rw [← hnc]
        unfold natToChars
        rw [digVal_natToCharsF _ _ _ (by omega)]
        simp
      unfold parseIntTok
      simp only [List.cons_append]
      split
      · rw [hall, hv]
        simp only [Option.some.injEq, Prod.mk.injEq, and_true, Int.ofNat_eq_coe]
        omega
      · rename_i hfalse
        exact absurd hc hfalse

/-- Hex digit characters decode back to their value. -/
theorem hexVal_hexDigitChar : ∀ m, m < 16 → hexVal (hexDigitChar m) = some m := by decide

/-- The four hex digits of a 16-bit value recombine to it. -/
theorem hexQuad_parts (n : Nat) (h : n < 65536) :
    hexQuad (n / 4096 % 16) (n / 256 % 16) (n / 16 % 16) (n % 16) = n := by
  unfold hexQuad
  omega

/-- The escaped quote parses back to a quote. -/
theorem parseOneChar_quote (rest : Str) :
    parseOneChar (('\\' :: '"' :: []) ++ rest) = some ('"', rest) := rfl

/-- A single `u`-escape parses back to its code point. -/
theorem parseOneChar_escape_u (n : Nat) (rest : Str) (hlt : n < 65536)
    (hval : n < 55296 ∨ 57343 < n) :
    parseOneChar (('\\' :: 'u' :: hex4 n) ++ rest) = some (Char.ofNat n, rest) := by
  simp only [hex4, List.cons_append, List.nil_append]
  simp only [parseOneChar]
  rw [hexVal_hexDigitChar _ (Nat.mod_lt _ (by omega)),
      hexVal_hexDigitChar _ (Nat.mod_lt _ (by omega)),
      hexVal_hexDigitChar _ (Nat.mod_lt _ (by omega)),
      hexVal_hexDigitChar _ (Nat.mod_lt _ (by omega))]
  simp only []
  rw [hexQuad_parts n hlt]
  rw [if_neg (by omega), if_neg (by omega)]

/-- A surrogate pair of `u`-escapes parses back to its astral code point. -/
theorem parseOneChar_surrogate (n : Nat) (rest : Str) (h1 : 65536 ≤ n) (h2 : n < 1114112) :
    parseOneChar (('\\' :: 'u' :: hex4 (55296 + (n - 65536) / 1024)) ++
      ('\\' :: 'u' :: hex4 (56320 + (n - 65536) % 1024)) ++ rest) =
      some (Char.ofNat n, rest) := by
  have hhi : 55296 + (n - 65536) / 1024 < 65536 := by omega
  have hlo : 56320 + (n - 65536) % 1024 < 65536 := by
    have := Nat.mod_lt (n - 65536) (show 0 < 1024 by omega)
    omega
  simp only [hex4, List.cons_append, List.nil_append, List.append_assoc]
  simp only [parseOneChar]
  rw [hexVal_hexDigitChar _ (Nat.mod_lt _ (by omega)),
      hexVal_hexDigitChar _ (Nat.mod_lt _ (by omega)),
      hexVal_hexDigitChar _ (Nat.mod_lt _ (by omega)),
      hexVal_hexDigitChar _ (Nat.mod_lt _ (by omega))]
  simp only []
  rw [hexQuad_parts _ hhi]
  rw [if_pos (by omega)]
  rw [hexVal_hexDigitChar _ (Nat.mod_lt _ (by omega)),
      hexVal_hexDigitChar _ (Nat.mod_lt _ (by omega)),
      hexVal_hexDigitChar _ (Nat.mod_lt _ (by omega)),
      hexVal_hexDigitChar _ (Nat.mod_lt _ (by omega))]
  simp only []
  rw [hexQuad_parts _ hlo]
  rw [if_pos (by
    constructor
    · omega
    · have := Nat.mod_lt (n - 65536) (show 0 < 1024 by omega)
      omega)]
  simp only [Option.some.injEq, Prod.mk.injEq, and_true]
  exact congrArg Char.ofNat (by
    have := Nat.div_add_mod (n - 65536) 1024
    omega)

/-- An unescaped character parses to itself. -/
theorem parseOneChar_literal (c : Char) (rest : Str) (h1 : c ≠ '"') (h2 : c ≠ '\\') :
    parseOneChar (c :: rest) = some (c, rest) := by
  unfold parseOneChar
  split
  · rename_i heq
    cases heq
  · rename_i heq
    exact absurd (List.head_eq_of_cons_eq heq) (by simpa using h1)
  · rename_i heq
    exact absurd (List.head_eq_of_cons_eq heq) (by simpa using h2)
  · rename_i heq
    injection heq with e1 e2
    rw [← e1, ← e2]

/-- Parsing inverts the JSON escaping of one character. -/
theorem parseOneChar_escape (c : Char) (rest : Str) :
    parseOneChar (escapeChar c ++ rest) = some (c, rest) := by
  unfold escapeChar
  split_ifs with h1 h2 h3 h4 h5 h6 h7 h8 h9
  · subst h1; rfl
  · subst h2; rfl
  · have hc : Char.ofNat 8 = c := by rw [← h3]; exact Char.ofNat_toNat c
    rw [← hc]; rfl
  · have hc : Char.ofNat 9 = c := by rw [← h4]; exact Char.ofNat_toNat c
    rw [← hc]; rfl
  · have hc : Char.ofNat 10 = c := by rw [← h5]; exact Char.ofNat_toNat c
    rw [← hc]; rfl
  · have hc : Char.ofNat 12 = c := by rw [← h6]; exact Char.ofNat_toNat c
    rw [← hc]; rfl
  · have hc : Char.ofNat 13 = c := by rw [← h7]; exact Char.ofNat_toNat c
    rw [← hc]; rfl
  · simp only [List.singleton_append]
    exact parseOneChar_literal c rest h1 h2
  · have hval : c.toNat < 55296 ∨ 57343 < c.toNat :=
      (char_valid_ranges c).imp id (fun h => h.1)
    rw [parseOneChar_escape_u c.toNat rest h9 hval, Char.ofNat_toNat]
  · have h2' : c.toNat < 1114112 := (char_valid_ranges c).elim (by omega) (fun h => h.2)
    rw [parseOneChar_surrogate c.toNat rest (by omega) h2', Char.ofNat_toNat]

/-- An escaped character never starts with a quote. -/
theorem escapeChar_head_ne_quote (c : Char) :
    ∃ d t, escapeChar c = d :: t ∧ d ≠ '"' := by
  unfold escapeChar
  split_ifs with h1 h2 h3 h4 h5 h6 h7 h8 h9
  · exact ⟨'\\', _, rfl, by decide⟩
  · exact ⟨'\\', _, rfl, by decide⟩
  · exact ⟨'\\', _, rfl, by decide⟩
  · exact ⟨'\\', _, rfl, by decide⟩
  · exact ⟨'\\', _, rfl, by decide⟩
  · exact ⟨'\\', _, rfl, by decide⟩
  · exact ⟨'\\', _, rfl, by decide⟩
  · exact ⟨c, _, rfl, h1⟩
  · exact ⟨'\\', _, rfl, by decide⟩
  · exact ⟨'\\', 'u' :: (hex4 (55296 + (c.toNat - 65536) / 1024) ++
      '\\' :: 'u' :: hex4 (56320 + (c.toNat - 65536) % 1024)), by simp, by decide⟩

/-- Unfolding of the string-body parser away from the closing quote. -/
theorem parseStrBodyF_not_quote (f : Nat) (s0 : Str) (h : ∀ t, s0 ≠ '"' :: t) :
    parseStrBodyF (f + 1) s0 =
      match parseOneChar s0 with
      | some (c, r) => (parseStrBodyF f r).map (fun p => (c :: p.1, p.2))
      | Option.none => Option.none := by
  rw [parseStrBodyF]
  all_goals first
  | rfl
  | exact fun t ht => h t ht

/-- Parsing inverts the JSON string escaping, given sufficient fuel. -/
theorem parseStrBodyF_inv :
    ∀ (s : Str) (fuel : Nat) (rest : Str), s.length < fuel →
    parseStrBodyF fuel ((s.map escapeChar).flatten ++ '"' :: rest) = some (s, rest) := by
  intro s
  induction s with
  | nil =>
    intro fuel rest hf
    match fuel, hf with
    | f + 1, _ =>
      simp only [List.map_nil, List.flatten_nil, List.nil_append]
      rfl
  | cons c cs ih =>
    intro fuel rest hf
    match fuel, hf with
    | f + 1, hf =>
      simp only [List.map_cons, List.flatten_cons, List.append_assoc]
      rw [parseStrBodyF_not_quote f _ (by
        obtain ⟨d, t, hdt, hdq⟩ := escapeChar_head_ne_quote c
        intro t' hcontra
        rw [hdt] at hcontra
        simp only [List.cons_append] at hcontra
        exact hdq (List.head_eq_of_cons_eq hcontra))]
      rw [parseOneChar_escape c _]
      simp only []
      rw [ih f rest (by simp only [List.length_cons] at hf; omega)]
      rfl

/-- An escaped character is non-empty. -/
theorem escapeChar_ne_nil (c : Char) : escapeChar c ≠ [] := by
  obtain ⟨d, t, hdt, -⟩ := escapeChar_head_ne_quote c
  rw [hdt]
  simp

/-- Escaping does not shorten a string. -/
theorem length_le_flatten_escape (s : Str) :
    s.length ≤ ((s.map escapeChar).flatten).length := by
  induction s with
  | nil => simp
  | cons c cs ih =>
    simp only [List.map_cons, List.flatten_cons, List.length_append, List.length_cons]
    have : 1 ≤ (escapeChar c).length := by
      obtain ⟨d, t, hdt, -⟩ := escapeChar_head_ne_quote c
      rw [hdt]
      simp
    omega

/-- Parsing inverts the JSON string escaping. -/
theorem parseStrBody_inv (s rest : Str) :
    parseStrBody ((s.map escapeChar).flatten ++ '"' :: rest) = some (s, rest) := by
  unfold parseStrBody
  apply parseStrBodyF_inv
  have h1 := length_le_flatten_escape s
  simp only [List.length_append, List.length_cons]
  omega

/-- Quote-fronted shape of an encoded string literal. -/
theorem encStr_cons_form (s : Str) (rest : Str) :
    encStr s ++ rest = '"' :: ((s.map escapeChar).flatten ++ '"' :: rest) := by
  unfold encStr
  simp

/-- Parsing inverts the JSON encoding of a string value. -/
theorem parseVal_encStr (s : Str) (rest : Str) :
    parseVal (encStr s ++ rest) = some (JV.s s, rest) := by
  rw [encStr_cons_form]
  unfold parseVal
  simp only []
  rw [parseStrBody_inv]
  rfl

/-- A decimal integer representation never starts with a quote. -/
theorem intToChars_head (i : Int) :
    ∃ c t, intToChars i = c :: t ∧ c ≠ '"' := by
  unfold intToChars
  by_cases h : i < 0
  · exact ⟨'-', natToChars i.natAbs, by simp [h], by decide⟩
  · simp only [h, if_false]
    match hnc : natToChars i.toNat, natToChars_ne_nil i.toNat with
    | c :: t, _ =>
      have hc : c.isDigit = true := by
        have hdig := natToCharsF_digits (i.toNat + 1) i.toNat c
        rw [show natToCharsF (i.toNat + 1) i.toNat = natToChars i.toNat from rfl,
            hnc] at hdig
        exact hdig (List.mem_cons_self c t)
      exact ⟨c, t, rfl, digit_ne_quote c hc⟩

/-- Unfolding of the value parser away from a string literal. -/
theorem parseVal_not_quote (s0 : Str) (h : ∀ t, s0 ≠ '"' :: t) :
    parseVal s0 = (parseIntTok s0).map (fun p => (JV.i p.1, p.2)) := by
  unfold parseVal
  split
  · rename_i rest
    exact absurd rfl (h rest)
  · rfl

/-- Parsing inverts the JSON encoding of an integer value. -/
theorem parseVal_encInt (i : Int) (rest : Str)
    (hr : ∀ c t, rest = c :: t → c.isDigit = false) :
    parseVal (intToChars i ++ rest) = some (JV.i i, rest) := by
  rw [parseVal_not_quote _ (by
    obtain ⟨c, t, hct, hcq⟩ := intToChars_head i
    intro t' hcontra
    rw [hct] at hcontra
    simp only [List.cons_append] at hcontra
    exact hcq (List.head_eq_of_cons_eq hcontra))]
  rw [parseIntTok_inv i rest hr]
  rfl

/-- Parsing inverts the JSON encoding of any value when the remainder does
    not begin with a digit. -/
theorem parseVal_encVal (v : JV) (rest : Str)
    (hr : ∀ c t, rest = c :: t → c.isDigit = false) :
    parseVal (encVal v ++ rest) = some (v, rest) := by
  cases v with
  | s s => exact parseVal_encStr s rest
  | i i => exact parseVal_encInt i rest hr

/-- Parsing one encoded member that ends at the closing brace. -/
theorem encPair_parse_brace (k : Str) (v : JV) (f : Nat) (r : Str) :
    parseFieldsF (f + 1) (encPair (k, v) ++ '}' :: r) = some ([(k, v)], r) := by
  have hform : encPair (k, v) ++ '}' :: r =
      '"' :: ((k.map escapeChar).flatten ++ '"' :: (':' :: ' ' :: (encVal v ++ '}' :: r))) := by
    unfold encPair
    rw [← encStr_cons_form]
    simp
  rw [hform]
  simp only [parseFieldsF]
  rw [parseStrBody_inv]
  simp only []
  rw [parseVal_encVal v ('}' :: r) (by
    intro c t hct
    injection hct with h1 _
    rw [← h1]
    decide)]
  rfl

/-- Parsing one encoded member that continues after a comma separator. -/
theorem encPair_parse_comma (k : Str) (v : JV) (f : Nat) (r : Str) :
    parseFieldsF (f + 1) (encPair (k, v) ++ ',' :: ' ' :: r) =
      match parseFieldsF f r with
      | some (fs, r5) => some ((k, v) :: fs, r5)
      | Option.none => Option.none := by
  have hform : encPair (k, v) ++ ',' :: ' ' :: r =
      '"' :: ((k.map escapeChar).flatten ++ '"' :: (':' :: ' ' :: (encVal v ++ ',' :: ' ' :: r))) := by
    unfold encPair
    rw [← encStr_cons_form]
    simp
  rw [hform]
  simp only [parseFieldsF]
  rw [parseStrBody_inv]
  simp only []
  rw [parseVal_encVal v (',' :: ' ' :: r) (by
    intro c t hct
    injection hct with h1 _
    rw [← h1]
    decide)]
  rfl

/-- Parsing inverts the encoding of a non-empty member list, given fuel at
    least the number of members. -/
theorem parseFieldsF_inv :
    ∀ (o : JObj) (fuel : Nat) (rest : Str), o ≠ [] → o.length ≤ fuel →
    parseFieldsF fuel (joinSep [',', ' '] (o.map encPair) ++ '}' :: rest) =
      some (o, rest) := by
  intro o
  induction o with
  | nil => intro fuel rest hne; exact absurd rfl hne
  | cons a o' ih =>
    intro fuel rest hne hlen
    obtain ⟨k, v⟩ := a
    cases o' with
    | nil =>
      match fuel, hlen with
      | f + 1, _ =>
        simp only [List.map_cons, List.map_nil]
        rw [show joinSep [',', ' '] [encPair (k, v)] = encPair (k, v) from rfl]
        exact encPair_parse_brace k v f rest
    | cons b o'' =>
      match fuel, hlen with
      | f + 1, hlen =>
        simp only [List.map_cons]
        rw [show joinSep [',', ' '] (encPair (k, v) :: encPair b :: o''.map encPair) =
            encPair (k, v) ++ [',', ' '] ++ joinSep [',', ' '] (encPair b :: o''.map encPair)
          from rfl]
        rw [List.append_assoc, List.append_assoc]
        simp only [List.cons_append, List.nil_append]
        rw [encPair_parse_comma k v f _]
        rw [show (encPair b :: o''.map encPair) = ((b :: o'').map encPair) from by simp]
        rw [ih f rest (by simp) (by simp only [List.length_cons] at hlen ⊢; omega)]

/-- An encoded member starts with a quote. -/
theorem encPair_cons_form (k : Str) (v : JV) :
    ∃ t, encPair (k, v) = '"' :: t := by
  unfold encPair
  rw [show encStr k ++ ':' :: ' ' :: encVal v = encStr k ++ (':' :: ' ' :: encVal v) from rfl]
  rw [encStr_cons_form]
  exact ⟨_, rfl⟩

/-- A joined non-empty member list starts with a quote. -/
theorem joinSep_encPair_head (a : Str × JV) (o' : List (Str × JV)) :
    ∃ t, joinSep [',', ' '] ((a :: o').map encPair) = '"' :: t := by
  obtain ⟨k, v⟩ := a
  obtain ⟨t0, ht0⟩ := encPair_cons_form k v
  cases o' with
  | nil =>
    simp only [List.map_cons, List.map_nil]
    exact ⟨t0, by rw [show joinSep [',', ' '] [encPair (k, v)] = encPair (k, v) from rfl, ht0]⟩
  | cons b o'' =>
    simp only [List.map_cons]
    rw [show joinSep [',', ' '] (encPair (k, v) :: encPair b :: o''.map encPair) =
        encPair (k, v) ++ [',', ' '] ++ joinSep [',', ' '] (encPair b :: o''.map encPair)
      from rfl]
    rw [ht0]
    exact ⟨t0 ++ ',' :: ' ' :: joinSep [',', ' '] (encPair b :: o''.map encPair), by simp⟩

/-- An encoded member is non-empty. -/
theorem encPair_length_pos (a : Str × JV) : 1 ≤ (encPair a).length := by
  obtain ⟨k, v⟩ := a
  obtain ⟨t, ht⟩ := encPair_cons_form k v
  rw [ht]
  simp

/-- The joined member list is at least as long as the member count. -/
theorem length_le_joinSep_encPair :
    ∀ (o : JObj), o.length ≤ (joinSep [',', ' '] (o.map encPair)).length := by
  intro o
  induction o with
  | nil => simp
  | cons a o' ih =>
    cases o' with
    | nil =>
      simp only [List.map_cons, List.map_nil, List.length_cons, List.length_nil]
      rw [show joinSep [',', ' '] [encPair a] = encPair a from rfl]
      have := encPair_length_pos a
      omega
    | cons b o'' =>
      simp only [List.map_cons] at ih ⊢
      rw [show joinSep [',', ' '] (encPair a :: encPair b :: o''.map encPair) =
          encPair a ++ [',', ' '] ++ joinSep [',', ' '] (encPair b :: o''.map encPair)
        from rfl]
      have h1 := encPair_length_pos a
      simp only [List.length_append, List.length_cons, List.length_nil] at ih ⊢
      omega

/-- Parsing inverts the canonical JSON encoding of an object. -/
theorem jsonParseObj_inv (o : JObj) (rest : Str) :
    jsonParseObj (jsonEncodeObj o ++ rest) = some (o, rest) := by
  cases o with
  | nil => rfl
  | cons a o' =>
    have hform : jsonEncodeObj (a :: o') ++ rest =
        '{' :: (joinSep [',', ' '] ((a :: o').map encPair) ++ '}' :: rest) := by
      unfold jsonEncodeObj
      simp
    rw [hform]
    obtain ⟨t, ht⟩ := joinSep_encPair_head a o'
    rw [ht]
    simp only [List.cons_append]
    show parseFields ('"' :: (t ++ '}' :: rest)) = some (a :: o', rest)
    rw [← List.cons_append, ← ht]
    unfold parseFields
    apply parseFieldsF_inv _ _ _ (by simp)
    have h1 := length_le_joinSep_encPair (a :: o')
    simp only [List.length_append, List.length_cons] at h1 ⊢
    omega

/-- Hex digit characters are ASCII. -/
theorem hexDigitChar_ascii (n : Nat) (h : n < 16) : (hexDigitChar n).toNat < 128 := by
  interval_cases n <;> decide

/-- The four-digit hex form is ASCII. -/
theorem hex4_ascii (n : Nat) : ∀ c ∈ hex4 n, c.toNat < 128 := by
  intro c hc
  unfold hex4 at hc
  simp only [List.mem_cons, List.not_mem_nil, or_false] at hc
  rcases hc with rfl | rfl | rfl | rfl <;>
    exact hexDigitChar_ascii _ (Nat.mod_lt _ (by omega))

/-- An escaped character is ASCII. -/
theorem escapeChar_ascii (c : Char) : ∀ d ∈ escapeChar c, d.toNat < 128 := by
  intro d hd
  unfold escapeChar at hd
  split_ifs at hd with h1 h2 h3 h4 h5 h6 h7 h8 h9
  · simp only [List.mem_cons, List.not_mem_nil, or_false] at hd
    rcases hd with rfl | rfl <;> decide
  · simp only [List.mem_cons, List.not_mem_nil, or_false] at hd
    rcases hd with rfl | rfl <;> decide
  · simp only [List.mem_cons, List.not_mem_nil, or_false] at hd
    rcases hd with rfl | rfl <;> decide
  · simp only [List.mem_cons, List.not_mem_nil, or_false] at hd
    rcases hd with rfl | rfl <;> decide
  · simp only [List.mem_cons, List.not_mem_nil, or_false] at hd
    rcases hd with rfl | rfl <;> decide
  · simp only [List.mem_cons, List.not_mem_nil, or_false] at hd
    rcases hd with rfl | rfl <;> decide
  · simp only [List.mem_cons, List.not_mem_nil, or_false] at hd
    rcases hd with rfl | rfl <;> decide
  · simp only [List.mem_cons, List.not_mem_nil, or_false] at hd
    subst hd
    omega
  · rcases List.mem_cons.mp hd with rfl | hd
    · decide
    · rcases List.mem_cons.mp hd with rfl | hd
      · decide
      · exact hex4_ascii _ d hd
  · rcases List.mem_append.mp hd with hd | hd <;>
    · rcases List.mem_cons.mp hd with rfl | hd
      · decide
      · rcases List.mem_cons.mp hd with rfl | hd
        · decide
        · exact hex4_ascii _ d hd

/-- An encoded string literal is ASCII. -/
theorem encStr_ascii (s : Str) : ∀ c ∈ encStr s, c.toNat < 128 := by
  intro c hc
  unfold encStr at hc
  rcases List.mem_cons.mp hc with rfl | hc
  · decide
  · rcases List.mem_append.mp hc with hc | hc
    · obtain ⟨l, hl, hcl⟩ := List.mem_flatten.mp hc
      obtain ⟨d, hd, hdl⟩ := List.mem_map.mp hl
      subst hdl
      exact escapeChar_ascii d c hcl
    · simp only [List.mem_cons, List.not_mem_nil, or_false] at hc
      subst hc
      decide

/-- Digits are ASCII. -/
theorem digit_ascii (c : Char) (h : c.isDigit = true) : c.toNat < 128 := by
  have := (isDigit_iff c).mp h
  omega

/-- A decimal integer representation is ASCII. -/
theorem intToChars_ascii (i : Int) : ∀ c ∈ intToChars i, c.toNat < 128 := by
  intro c hc
  unfold intToChars at hc
  split_ifs at hc with h
  · rcases List.mem_cons.mp hc with rfl | hc
    · decide
    · exact digit_ascii c (natToCharsF_digits _ _ c hc)
  · exact digit_ascii c (natToCharsF_digits _ _ c hc)

/-- An encoded value is ASCII. -/
theorem encVal_ascii (v : JV) : ∀ c ∈ encVal v, c.toNat < 128 := by
  cases v with
  | s s => exact encStr_ascii s
  | i i => exact intToChars_ascii i

/-- An encoded member is ASCII. -/
theorem encPair_ascii (a : Str × JV) : ∀ c ∈ encPair a, c.toNat < 128 := by
  obtain ⟨k, v⟩ := a
  intro c hc
  unfold encPair at hc
  rcases List.mem_append.mp hc with hc | hc
  · exact encStr_ascii k c hc
  · rcases List.mem_cons.mp hc with rfl | hc
    · decide
    · rcases List.mem_cons.mp hc with rfl | hc
      · decide
      · exact encVal_ascii v c hc

/-- A pointwise property holds of a joined list when it holds of the pieces
    and the separator. -/
theorem joinSep_forall {P : Char → Prop} (sep : Str) (hsep : ∀ c ∈ sep, P c) :
    ∀ (xs : List Str), (∀ x ∈ xs, ∀ c ∈ x, P c) → ∀ c ∈ joinSep sep xs, P c := by
  intro xs
  induction xs with
  | nil => intro hx c hc; cases hc
  | cons x t ih =>
    intro hx c hc
    cases t with
    | nil => exact hx x (List.mem_cons_self _ _) c hc
    | cons y t' =>
      rw [show joinSep sep (x :: y :: t') = x ++ sep ++ joinSep sep (y :: t') from rfl] at hc
      rcases List.mem_append.mp hc with hc | hc
      · rcases List.mem_append.mp hc with hc | hc
        · exact hx x (List.mem_cons_self _ _) c hc
        · exact hsep c hc
      · exact ih (fun z hz => hx z (List.mem_cons_of_mem _ hz)) c hc

/-- The canonical JSON encoding of an object is ASCII (`ensure_ascii`). -/
theorem jsonEncodeObj_ascii (o : JObj) : ∀ c ∈ jsonEncodeObj o, c.toNat < 128 := by
  intro c hc
  unfold jsonEncodeObj at hc
  rcases List.mem_cons.mp hc with rfl | hc
  · decide
  · rcases List.mem_append.mp hc with hc | hc
    · refine joinSep_forall (P := fun d => d.toNat < 128) [',', ' '] ?_ (o.map encPair) ?_ c hc
      · intro d hd
        rcases List.mem_cons.mp hd with rfl | hd
        · decide
        · simp only [List.mem_cons, List.not_mem_nil, or_false] at hd
          subst hd
          decide
      · intro x hx d hd
        obtain ⟨a, ha, hax⟩ := List.mem_map.mp hx
        subst hax
        exact encPair_ascii a d hd
    · simp only [List.mem_cons, List.not_mem_nil, or_false] at hc
      subst hc
      decide

/-- Reading characters back from their code points is the identity. -/
theorem map_toNat_ofNat (l : Str) : (l.map Char.toNat).map Char.ofNat = l := by
  induction l with
  | nil => rfl
  | cons c cs ih =>
    simp only [List.map_cons, Char.ofNat_toNat, ih]

/-- Decoding a base64url-encoded canonical JSON object recovers it. -/
theorem decodeSegment_inv (o : JObj) :
    decodeSegment (b64encBytes ((jsonEncodeObj o).map Char.toNat)) = some o := by
  unfold decodeSegment
  rw [b64_roundtrip _ (by
    intro b hb
    obtain ⟨c, hc, hcb⟩ := List.mem_map.mp hb
    subst hcb
    have := jsonEncodeObj_ascii o c hc
    omega)]
  simp only []
  rw [map_toNat_ofNat]
  have h := jsonParseObj_inv o []
  rw [List.append_nil] at h
  rw [h]

/-- A base64url encoding contains no dot. -/
theorem not_dot_b64 (l : List Nat) : '.' ∉ b64encBytes l :=
  fun h => b64encBytes_ne_dot l '.' h rfl

/-- A modelled signature contains no dot. -/
theorem not_dot_signJWS (k : Nat) (h c : Str) : '.' ∉ signJWS k h c := by
  unfold signJWS
  exact not_dot_b64 _

/-- Splitting at a leading separator. -/
theorem splitChar_cons_sep (sep : Char) (b : Str) :
    splitChar sep (sep :: b) = [] :: splitChar sep b := by
  unfold splitChar
  conv_lhs => rw [splitPred]
  simp

/-- Splitting peels off a separator-free prefix. -/
theorem splitChar_append_sep (sep : Char) (a b : Str) (ha : sep ∉ a) :
    splitChar sep (a ++ sep :: b) = a :: splitChar sep b := by
  induction a with
  | nil =>
    simp only [List.nil_append]
    exact splitChar_cons_sep sep b
  | cons c cs ih =>
    have hc : ¬ (c = sep) := fun hq => ha (hq ▸ List.mem_cons_self c cs)
    have hcs : sep ∉ cs := fun hm => ha (List.mem_cons_of_mem c hm)
    simp only [List.cons_append]
    unfold splitChar
    conv_lhs => rw [splitPred]
    rw [if_neg (by simp [hc])]
    have := ih hcs
    unfold splitChar at this
    rw [this]

/-- A three-segment dot-joined token splits into its segments. -/
theorem splitChar_token (a b c : Str) (hna : '.' ∉ a) (hnb : '.' ∉ b) (hnc : '.' ∉ c) :
    splitChar '.' (a ++ '.' :: (b ++ '.' :: c)) = [a, b, c] := by
  rw [splitChar_append_sep '.' a _ hna, splitChar_append_sep '.' b _ hnb,
      splitChar_not_mem '.' c hnc]

/-- The decoded header of a serialized token is the original header. -/
theorem tokenHeader_serialize (h c : JObj) (sig : Str) (hs : '.' ∉ sig) :
    tokenHeader (serializeToken h c sig) = some h := by
  unfold tokenHeader serializeToken
  rw [splitChar_token _ _ _ (not_dot_b64 _) (not_dot_b64 _) hs]
  exact decodeSegment_inv h

/-- The decoded claims of a serialized token are the original claims. -/
theorem tokenClaims_serialize (h c : JObj) (sig : Str) (hs : '.' ∉ sig) :
    tokenClaims (serializeToken h c sig) = some c := by
  unfold tokenClaims serializeToken
  rw [splitChar_token _ _ _ (not_dot_b64 _) (not_dot_b64 _) hs]
  exact decodeSegment_inv c

/-- With neither a lifetime nor an expiry, the built claims carry `exp` only
    if the caller supplied it. -/
theorem jwtClaims_exp_skipped (claims : JObj) (not_before : Option Int)
    (jti_size : Nat) (now : Int) (rand : List Nat)
    (hexp : dictLookup claims "exp".toList = Option.none) :
    dictLookup (jwtClaims claims Option.none Option.none not_before jti_size now rand)
      "exp".toList = Option.none := by
  simp only [jwtClaims, expFromExpires]
  rw [dictLookup_dictSet_ne _ _ _ _ (by decide)]
  rw [dictLookup_dictSet_ne _ _ _ _ (by decide)]
  by_cases hj : jti_size ≠ 0
  · rw [if_pos hj, dictLookup_dictSet_ne _ _ _ _ (by decide)]
    exact hexp
  · rw [if_neg hj]
    exact hexp

/-- C7 (amended): for every caller claims map that does not itself contain an
    `exp` key, when neither a lifetime nor an explicit expires timestamp is
    supplied to token issuance, the serialized token's claims contain no `exp`
    entry. -/
theorem C7_amended (claims : JObj) (priv_key : Option Nat) (algorithm : Str)
    (not_before : Option Int) (jti_size : Nat) (extra_headers : JObj) (now : Int)
    (rand : List Nat) (t : Str)
    (hexp : dictLookup claims "exp".toList = Option.none)
    (h : generate_jwt_patched claims priv_key algorithm Option.none Option.none not_before
      jti_size extra_headers now rand = some t) :
    ∃ m, tokenClaims t = some m ∧ dictLookup m "exp".toList = Option.none := by
  have hclaims := jwtClaims_exp_skipped claims not_before jti_size now rand hexp
  simp only [generate_jwt_patched] at h
  split at h
  · injection h with h'
    subst h'
    exact ⟨_, tokenClaims_serialize _ _ _ (List.not_mem_nil '.'), hclaims⟩
  · cases priv_key with
    | some k =>
      injection h with h'
      subst h'
      exact ⟨_, tokenClaims_serialize _ _ _ (not_dot_signJWS _ _ _), hclaims⟩
    | none => exact Option.noConfusion h

set_option maxRecDepth 40000 in
/-- C7 counterexample: a caller claims map that already contains `exp` keeps
    it even when neither a lifetime nor an explicit expires timestamp is
    supplied, so the claim as stated (for every caller claims map) is false. -/
theorem C7_counterexample :
    tokenExp (generate_jwt_patched [("exp".toList, JV.i 5)] (some 1) "A".toList
      Option.none Option.none Option.none 16 [] 0 [0]) = some (some (JV.i 5)) := by decide

set_option maxRecDepth 40000 in
/-- C7 witness: a concrete issuance without lifetime and expires yields a
    token whose claims have no `exp`. -/
theorem C7_witness :
    ∃ m, tokenClaims ((generate_jwt_patched [] (some 1) "A".toList Option.none Option.none
        Option.none 16 [] 0 [0]).getD []) = some m ∧
      dictLookup m "exp".toList = Option.none :=
  C7_amended [] (some 1) "A".toList Option.none 16 [] 0 [0] _ (by decide) (by decide)

/-- C8: for every issuance call with no private key supplied that produces a
    token, the token's header `alg` field is the string `none`, the third
    (signature) segment is empty, and the token string ends with a trailing
    dot after the claims segment. -/
theorem C8_unsigned (claims : JObj) (algorithm : Str)
    (lifetime expires not_before : Option Int) (jti_size : Nat) (extra_headers : JObj)
    (now : Int) (rand : List Nat) (t : Str)
    (h : generate_jwt_patched claims Option.none algorithm lifetime expires not_before
      jti_size extra_headers now rand = some t) :
    (∃ hm, tokenHeader t = some hm ∧
      dictLookup hm "alg".toList = some (JV.s "none".toList)) ∧
    (∃ a b, splitChar '.' t = [a, b, []]) ∧ t.getLast? = some '.' := by
  simp only [generate_jwt_patched] at h
  split at h
  · rename_i halg
    injection h with h'
    subst h'
    refine ⟨⟨_, tokenHeader_serialize _ _ _ (List.not_mem_nil '.'), halg⟩,
      ⟨b64encBytes ((jsonEncodeObj (jwtHeader Option.none algorithm extra_headers)).map
          Char.toNat),
        b64encBytes ((jsonEncodeObj (jwtClaims claims lifetime expires not_before jti_size
          now rand)).map Char.toNat), ?_⟩, ?_⟩
    · unfold serializeToken
      rw [splitChar_token _ _ _ (not_dot_b64 _) (not_dot_b64 _) (List.not_mem_nil '.')]
    · unfold serializeToken
      rw [show ('.' :: (b64encBytes ((jsonEncodeObj (jwtClaims claims lifetime expires
          not_before jti_size now rand)).map Char.toNat) ++ '.' :: [])) =
          ('.' :: b64encBytes ((jsonEncodeObj (jwtClaims claims lifetime expires
          not_before jti_size now rand)).map Char.toNat)) ++ ['.'] from by simp]
      rw [← List.append_assoc]
      exact List.getLast?_concat _
  · exact Option.noConfusion h

/-- C8 witness: a concrete unsigned issuance. -/
theorem C8_witness :
    ((∃ hm, tokenHeader ((generate_jwt_patched [] Option.none "A".toList Option.none
        Option.none Option.none 0 [] 0 []).getD []) = some hm ∧
      dictLookup hm "alg".toList = some (JV.s "none".toList)) ∧
    (∃ a b, splitChar '.' ((generate_jwt_patched [] Option.none "A".toList Option.none
        Option.none Option.none 0 [] 0 []).getD []) = [a, b, []]) ∧
    ((generate_jwt_patched [] Option.none "A".toList Option.none Option.none Option.none
        0 [] 0 []).getD []).getLast? = some '.') :=
  C8_unsigned [] "A".toList Option.none Option.none Option.none 0 [] 0 [] _ (by decide)

/-- Validation succeeds on a serialized token whose signature matches its
    algorithm and whose timing claims admit the given time. -/
theorem verify_roundtrip_core (header claims : JObj) (sig : Str) (key : Nat) (vnow : Int)
    (alg : Str)
    (hhl : dictLookup header "alg".toList = some (JV.s alg))
    (hsig : sig = (if alg = "none".toList then []
      else signJWS key (jsonEncodeObj header) (jsonEncodeObj claims)))
    (hdot : '.' ∉ sig)
    (hnbf : ∀ tval, dictLookup claims "nbf".toList = some (JV.i tval) → tval ≤ vnow)
    (hexp : ∀ tval, dictLookup claims "exp".toList = some (JV.i tval) → vnow < tval) :
    verify_jwt (serializeToken header claims sig) key [alg] vnow = Except.ok claims := by
  simp only [verify_jwt, serializeToken]
  rw [splitChar_token _ _ _ (not_dot_b64 _) (not_dot_b64 _) hdot]
  simp only []
  rw [decodeSegment_inv, decodeSegment_inv]
  simp only []
  rw [hhl]
  simp only []
  rw [if_neg (by simp)]
  have hsigok : (if alg = "none".toList then decide (sig = [])
      else decide (sig = signJWS key (jsonEncodeObj header) (jsonEncodeObj claims))) = true := by
    by_cases halg : alg = "none".toList
    · rw [if_pos halg]
      rw [if_pos halg] at hsig
      simp [hsig]
    · rw [if_neg halg]
      rw [if_neg halg] at hsig
      simp [hsig]
  rw [hsigok]
  simp only [Bool.not_true, Bool.false_eq_true, if_false]
  have hnbfok : (match dictLookup claims "nbf".toList with
      | some (JV.i t) => decide (t ≤ vnow)
      | _ => true) = true := by
    cases hnb : dictLookup claims "nbf".toList with
    | none => rfl
    | some v =>
      cases v with
      | s s => rfl
      | i t => simp [hnbf t hnb]
  rw [hnbfok]
  simp only [Bool.not_true, Bool.false_eq_true, if_false]
  have hexpok : (match dictLookup claims "exp".toList with
      | some (JV.i t) => decide (vnow < t)
      | _ => true) = true := by
    cases hex : dictLookup claims "exp".toList with
    | none => rfl
    | some v =>
      cases v with
      | s s => rfl
      | i t => simp [hexp t hex]
  rw [hexpok]
  simp only [Bool.not_true, Bool.false_eq_true, if_false]

/-- Adding a whole-second lifetime shifts the truncated timestamp exactly. -/
theorem timegm_add_whole_seconds (now : Int) (L : Nat) :
    timegm (now + (L : Int) * 1000000) = timegm now + L := by
  unfold timegm
  rw [Int.fdiv_eq_ediv _ (by omega), Int.fdiv_eq_ediv _ (by omega),
      Int.add_mul_ediv_right _ _ (show (1000000 : Int) ≠ 0 by omega)]

/-- `exp` of the built claims under a non-zero lifetime. -/
theorem jwtClaims_life_exp (claims : JObj) (l : Int) (hl : l ≠ 0) (nb : Option Int)
    (js : Nat) (now : Int) (rand : List Nat) :
    dictLookup (jwtClaims claims (some l) Option.none nb js now rand) "exp".toList =
      some (JV.i (timegm (now + l))) := by
  simp only [jwtClaims]
  rw [if_pos hl]
  exact dictLookup_dictSet_self _ _ _

/-- `iat` of the built claims under a non-zero lifetime. -/
theorem jwtClaims_life_iat (claims : JObj) (l : Int) (hl : l ≠ 0) (nb : Option Int)
    (js : Nat) (now : Int) (rand : List Nat) :
    dictLookup (jwtClaims claims (some l) Option.none nb js now rand) "iat".toList =
      some (JV.i (timegm now)) := by
  simp only [jwtClaims]
  rw [if_pos hl]
  rw [dictLookup_dictSet_ne _ _ _ _ (by decide)]
  exact dictLookup_dictSet_self _ _ _

/-- `nbf` of the built claims under a non-zero lifetime. -/
theorem jwtClaims_life_nbf (claims : JObj) (l : Int) (hl : l ≠ 0) (nb : Option Int)
    (js : Nat) (now : Int) (rand : List Nat) :
    dictLookup (jwtClaims claims (some l) Option.none nb js now rand) "nbf".toList =
      some (JV.i (timegm (nb.getD now))) := by
  simp only [jwtClaims]
  rw [if_pos hl]
  rw [dictLookup_dictSet_ne _ _ _ _ (by decide)]
  rw [dictLookup_dictSet_ne _ _ _ _ (by decide)]
  exact dictLookup_dictSet_self _ _ _

/-- `jti` of the built claims under a non-zero lifetime and truthy size. -/
theorem jwtClaims_life_jti (claims : JObj) (l : Int) (hl : l ≠ 0) (nb : Option Int)
    (js : Nat) (hjs : js ≠ 0) (now : Int) (rand : List Nat) :
    dictLookup (jwtClaims claims (some l) Option.none nb js now rand) "jti".toList =
      some (JV.s (b64encBytes rand)) := by
  simp only [jwtClaims]
  rw [if_pos hl]
  rw [dictLookup_dictSet_ne _ _ _ _ (by decide)]
  rw [dictLookup_dictSet_ne _ _ _ _ (by decide)]
  rw [dictLookup_dictSet_ne _ _ _ _ (by decide)]
  rw [if_pos hjs]
  exact dictLookup_dictSet_self _ _ _

/-- Caller claims at non-generated keys survive the claim generation. -/
theorem jwtClaims_preserved (claims : JObj) (lifetime expires nb : Option Int)
    (js : Nat) (now : Int) (rand : List Nat) (k : Str)
    (h1 : k ≠ "jti".toList) (h2 : k ≠ "nbf".toList) (h3 : k ≠ "iat".toList)
    (h4 : k ≠ "exp".toList) :
    dictLookup (jwtClaims claims lifetime expires nb js now rand) k =
      dictLookup claims k := by
  simp only [jwtClaims]
  have base : dictLookup (dictSet (dictSet
      (if js ≠ 0 then dictSet claims "jti".toList (JV.s (b64encBytes rand)) else claims)
      "nbf".toList (JV.i (timegm (nb.getD now))))
      "iat".toList (JV.i (timegm now))) k = dictLookup claims k := by
    rw [dictLookup_dictSet_ne _ _ _ _ (Ne.symm h3)]
    rw [dictLookup_dictSet_ne _ _ _ _ (Ne.symm h2)]
    by_cases hj : js ≠ 0
    · rw [if_pos hj, dictLookup_dictSet_ne _ _ _ _ (Ne.symm h1)]
    · rw [if_neg hj]
  cases lifetime with
  | some l =>
    simp only []
    by_cases hl : l ≠ 0
    · rw [if_pos hl, dictLookup_dictSet_ne _ _ _ _ (Ne.symm h4)]
      exact base
    · rw [if_neg hl]
      cases expires with
      | some e =>
        simp only [expFromExpires]
        rw [dictLookup_dictSet_ne _ _ _ _ (Ne.symm h4)]
        exact base
      | none => exact base
  | none =>
    simp only []
    cases expires with
    | some e =>
      simp only [expFromExpires]
      rw [dictLookup_dictSet_ne _ _ _ _ (Ne.symm h4)]
      exact base
    | none => exact base

/-- The header algorithm with a key and no extra headers. -/
theorem jwtHeader_no_extra_alg (key : Nat) (alg : Str) :
    dictLookup (jwtHeader (some key) alg []) "alg".toList = some (JV.s alg) := by
  simp only [jwtHeader, dictUpdate, List.foldl_nil]
  unfold dictLookup
  rw [if_neg (by decide)]
  unfold dictLookup
  rw [if_pos rfl]

/-- C3 (amended): for every caller claims map and positive whole-second
    lifetime L, validating a token issued with lifetime L under the same key
    and algorithm, at any time within the validity window, succeeds and
    returns a claims map containing all caller claims at non-generated keys,
    plus generated `jti`, `iat`, `nbf` and `exp`, where `exp - iat = L` in
    whole seconds and `nbf = iat` since no explicit not_before was supplied. -/
theorem C3_roundtrip (claims : JObj) (L : Nat) (key : Nat) (alg : Str) (now : Int)
    (rand : List Nat) (vnow : Int) (hL : 0 < L)
    (hv1 : timegm now ≤ vnow) (hv2 : vnow < timegm now + L) :
    ∃ t m,
      generate_jwt_patched claims (some key) alg (some ((L : Int) * 1000000)) Option.none
        Option.none 16 [] now rand = some t ∧
      verify_jwt t key [alg] vnow = Except.ok m ∧
      (∀ k v, dictLookup claims k = some v → k ≠ "jti".toList → k ≠ "nbf".toList →
        k ≠ "iat".toList → k ≠ "exp".toList → dictLookup m k = some v) ∧
      dictLookup m "jti".toList = some (JV.s (b64encBytes rand)) ∧
      dictLookup m "iat".toList = some (JV.i (timegm now)) ∧
      dictLookup m "nbf".toList = some (JV.i (timegm now)) ∧
      dictLookup m "exp".toList = some (JV.i (timegm now + L)) := by
  have hlne : ((L : Int) * 1000000) ≠ 0 := by omega
  have hpres : ∀ k v, dictLookup claims k = some v → k ≠ "jti".toList →
      k ≠ "nbf".toList → k ≠ "iat".toList → k ≠ "exp".toList →
      dictLookup (jwtClaims claims (some ((L : Int) * 1000000)) Option.none Option.none
        16 now rand) k = some v := by
    intro k v hv h1 h2 h3 h4
    rw [jwtClaims_preserved _ _ _ _ _ _ _ k h1 h2 h3 h4]
    exact hv
  have hjti := jwtClaims_life_jti claims _ hlne Option.none 16 (by omega) now rand
  have hiat := jwtClaims_life_iat claims _ hlne Option.none 16 now rand
  have hnbf0 := jwtClaims_life_nbf claims _ hlne Option.none 16 now rand
  have hnbf' : dictLookup (jwtClaims claims (some ((L : Int) * 1000000)) Option.none
      Option.none 16 now rand) "nbf".toList = some (JV.i (timegm now)) := by
    simpa using hnbf0
  have hexp0 := jwtClaims_life_exp claims _ hlne Option.none 16 now rand
  have hexp' : dictLookup (jwtClaims claims (some ((L : Int) * 1000000)) Option.none
      Option.none 16 now rand) "exp".toList = some (JV.i (timegm now + L)) := by
    rw [hexp0, timegm_add_whole_seconds]
  have hnbfchk : ∀ tval, dictLookup (jwtClaims claims (some ((L : Int) * 1000000))
      Option.none Option.none 16 now rand) "nbf".toList = some (JV.i tval) →
      tval ≤ vnow := by
    intro tval htv
    rw [hnbf'] at htv
    injection htv with h'
    injection h' with h''
    omega
  have hexpchk : ∀ tval, dictLookup (jwtClaims claims (some ((L : Int) * 1000000))
      Option.none Option.none 16 now rand) "exp".toList = some (JV.i tval) →
      vnow < tval := by
    intro tval htv
    rw [hexp'] at htv
    injection htv with h'
    injection h' with h''
    omega
  simp only [generate_jwt_patched]
  by_cases halg : dictLookup (jwtHeader (some key) alg []) "alg".toList =
      some (JV.s "none".toList)
  · rw [if_pos halg]
    have halg2 : alg = "none".toList := by
      have hx := jwtHeader_no_extra_alg key alg
      rw [hx] at halg
      exact JV.s.inj (Option.some.inj halg)
    refine ⟨_, _, rfl,
      verify_roundtrip_core _ _ [] key vnow alg (jwtHeader_no_extra_alg key alg)
        (by rw [if_pos halg2]) (List.not_mem_nil '.') hnbfchk hexpchk,
      hpres, hjti, hiat, hnbf', hexp'⟩
  · rw [if_neg halg]
    have halgne : alg ≠ "none".toList := by
      intro hc
      exact halg (by rw [jwtHeader_no_extra_alg, hc])
    refine ⟨_, _, rfl,
      verify_roundtrip_core _ _ _ key vnow alg (jwtHeader_no_extra_alg key alg)
        (by rw [if_neg halgne]) (not_dot_signJWS _ _ _) hnbfchk hexpchk,
      hpres, hjti, hiat, hnbf', hexp'⟩

/-- Validation of a token without an `exp` claim never reports expiry. -/
theorem verify_no_expired (header m : JObj) (sig : Str) (key' : Nat)
    (allowed : List Str) (vnow : Int) (hdot : '.' ∉ sig)
    (hexp : dictLookup m "exp".toList = Option.none) :
    verify_jwt (serializeToken header m sig) key' allowed vnow ≠
      Except.error TokenError.Expired := by
  simp only [verify_jwt, serializeToken]
  rw [splitChar_token _ _ _ (not_dot_b64 _) (not_dot_b64 _) hdot]
  simp only []
  rw [decodeSegment_inv, decodeSegment_inv]
  simp only []
  cases hal : dictLookup header "alg".toList with
  | none => exact fun hc => TokenError.noConfusion (Except.error.inj hc)
  | some v =>
    cases v with
    | i n => exact fun hc => TokenError.noConfusion (Except.error.inj hc)
    | s alg =>
      simp only []
      by_cases hin : alg ∉ allowed
      · rw [if_pos hin]
        exact fun hc => TokenError.noConfusion (Except.error.inj hc)
      · rw [if_neg hin]
        cases hb : (if alg = "none".toList then decide (sig = [])
            else decide (sig = signJWS key' (jsonEncodeObj header) (jsonEncodeObj m))) with
        | false =>
          exact fun hc => TokenError.noConfusion (Except.error.inj hc)
        | true =>
          simp only [Bool.not_true, Bool.false_eq_true, if_false]
          cases hnb : (match dictLookup m "nbf".toList with
              | some (JV.i t) => decide (t ≤ vnow)
              | _ => true) with
          | false =>
            exact fun hc => TokenError.noConfusion (Except.error.inj hc)
          | true =>
            simp only [Bool.not_true, Bool.false_eq_true, if_false]
            rw [hexp]
            exact fun hc => Except.noConfusion hc

/-- The header algorithm with a key and a `kid` extra header. -/
theorem jwtHeader_kid_alg (key : Nat) (cipher kid : Str) :
    dictLookup (jwtHeader (some key) cipher [("kid".toList, JV.s kid)]) "alg".toList =
      some (JV.s cipher) := by
  simp only [jwtHeader, dictUpdate, List.foldl_cons, List.foldl_nil]
  rw [dictLookup_dictSet_ne _ _ _ _ (by decide)]
  unfold dictLookup
  rw [if_neg (by decide)]
  unfold dictLookup
  rw [if_pos rfl]

/-- C10: `JWTTools.generate_jwt` issues with neither a lifetime nor an
    explicit expires argument, so for every payload without an `exp` key the
    issued token carries no `exp` claim and is never rejected as expired by
    time-based validation (for any key, allowed algorithms and time). -/
theorem C10_no_expiry (payload : JObj) (key : Nat) (cipher kid : Str) (now : Int)
    (rand : List Nat) (hexp : dictLookup payload "exp".toList = Option.none) :
    ∃ t, JWTTools_generate_jwt payload key cipher kid now rand = some t ∧
      (∃ m, tokenClaims t = some m ∧ dictLookup m "exp".toList = Option.none) ∧
      ∀ key' allowed vnow,
        verify_jwt t key' allowed vnow ≠ Except.error TokenError.Expired := by
  have hm := jwtClaims_exp_skipped payload Option.none 16 now rand hexp
  unfold JWTTools_generate_jwt
  simp only [generate_jwt_patched]
  by_cases halg : dictLookup (jwtHeader (some key) cipher [("kid".toList, JV.s kid)])
      "alg".toList = some (JV.s "none".toList)
  · rw [if_pos halg]
    exact ⟨_, rfl,
      ⟨_, tokenClaims_serialize _ _ _ (List.not_mem_nil '.'), hm⟩,
      fun key' allowed vnow =>
        verify_no_expired _ _ _ key' allowed vnow (List.not_mem_nil '.') hm⟩
  · rw [if_neg halg]
    exact ⟨_, rfl,
      ⟨_, tokenClaims_serialize _ _ _ (not_dot_signJWS _ _ _), hm⟩,
      fun key' allowed vnow =>
        verify_no_expired _ _ _ key' allowed vnow (not_dot_signJWS _ _ _) hm⟩

/-- C3 counterexample: with lifetime L = 0 (a zero timedelta is falsy), the
    issued token carries no `exp` claim at all, and validation succeeds
    returning a claims map without `exp`, so the claim as stated (for every
    lifetime L) is false. -/
theorem C3_counterexample :
    expClaimOf (verify_jwt ((generate_jwt_patched [] (some 0) "A".toList (some 0)
      Option.none Option.none 16 [] 0 [0]).getD []) 0 ["A".toList] 0) =
      some Option.none := by decide

/-- C3 witness: a concrete one-second-lifetime round trip. -/
theorem C3_roundtrip_witness :
    ∃ t m,
      generate_jwt_patched [] (some 0) "A".toList (some (((1 : Nat) : Int) * 1000000))
        Option.none Option.none 16 [] 0 [0] = some t ∧
      verify_jwt t 0 ["A".toList] 0 = Except.ok m ∧
      (∀ k v, dictLookup ([] : JObj) k = some v → k ≠ "jti".toList → k ≠ "nbf".toList →
        k ≠ "iat".toList → k ≠ "exp".toList → dictLookup m k = some v) ∧
      dictLookup m "jti".toList = some (JV.s (b64encBytes [0])) ∧
      dictLookup m "iat".toList = some (JV.i (timegm 0)) ∧
      dictLookup m "nbf".toList = some (JV.i (timegm 0)) ∧
      dictLookup m "exp".toList = some (JV.i (timegm 0 + (1 : Nat))) :=
  C3_roundtrip [] 1 0 "A".toList 0 [0] 0 (by decide) (by decide) (by decide)

/-- C10 witness: a concrete issuance through the wrapper. -/
theorem C10_no_expiry_witness :
    ∃ t, JWTTools_generate_jwt [] 0 "RS256".toList "K".toList 0 [] = some t ∧
      (∃ m, tokenClaims t = some m ∧ dictLookup m "exp".toList = Option.none) ∧
      ∀ key' allowed vnow,
        verify_jwt t key' allowed vnow ≠ Except.error TokenError.Expired :=
  C10_no_expiry [] 0 "RS256".toList "K".toList 0 [] (by decide)
